import Mathlib

/-!
Verification of the binary-search-tree core of `bst_visualizer.py`.

The Python model is a pointer structure: `BSTNode` objects with `key`,
`left`, `right` and `parent` references, owned by a `BST` holding the root.
We embed it shallowly: node objects live in an explicit heap indexed by
allocation order (`Nat` ids), fields hold `Option Nat` references, and each
`while` loop of the source becomes a fuel-bounded recursion (the fuel
`nextId + 1` strictly exceeds the height of any well-formed tree, so the
bound is never hit on states reachable through the API).

On top of the heap model we define an algebraic abstraction (`Tree`,
contexts `Ctx`) used only in proofs: a heap models a tree when the
reachable pointer structure spells out that tree.
-/

namespace BSTVis

/-- A BST node as in the source (`BSTNode`): integer key, child references
and a parent back-reference, all as optional node ids into the heap. -/
structure Node where
  key : Int
  left : Option Nat
  right : Option Nat
  parent : Option Nat
deriving DecidableEq

/-- Contents of an unallocated heap cell (never dereferenced on
well-formed states). -/
def emptyNode : Node := ⟨0, none, none, none⟩

/-- The object heap: node ids to node records. -/
abbrev Heap := Nat → Node

/-- Overwrite one heap cell. -/
def hset (h : Heap) (i : Nat) (n : Node) : Heap := fun j => if j = i then n else h j

/-- Assignment `node.left = v`. -/
def setLeft (h : Heap) (i : Nat) (v : Option Nat) : Heap := hset h i { h i with left := v }

/-- Assignment `node.right = v`. -/
def setRight (h : Heap) (i : Nat) (v : Option Nat) : Heap := hset h i { h i with right := v }

/-- Assignment `node.parent = v`. -/
def setParent (h : Heap) (i : Nat) (v : Option Nat) : Heap := hset h i { h i with parent := v }

/-- The state of a `BST` object: root reference, plus the heap of all nodes
ever allocated and the next fresh id. -/
structure BST where
  heap : Heap
  root : Option Nat
  nextId : Nat

/-- `BST.__init__`: the empty tree. -/
def emptyBST : BST := ⟨fun _ => emptyNode, none, 0⟩

/-- Result of the descent loop in `BST.insert`: a duplicate node, or the
parent slot for the new leaf. -/
inductive InsRes where
| dup : Nat → InsRes
| slot : Option Nat → InsRes
deriving DecidableEq

/-- The `while` loop of `BST.insert`: descend from `x` with trailing
pointer `y`; `none` signals fuel exhaustion (impossible on well-formed
trees). -/
def BST.insertLoop (h : Heap) (key : Int) : Option Nat → Option Nat → Nat → Option InsRes
| _, _, 0 => none
| none, y, _ + 1 => some (.slot y)
| some xi, _, fuel + 1 =>
    if key = (h xi).key then some (.dup xi)
    else BST.insertLoop h key (if key < (h xi).key then (h xi).left else (h xi).right) (some xi) fuel

/-- `BST.insert`: returns the new state and the pair `(z, y)` of the
source: `(none, x)` on a duplicate at node `x`, otherwise the new leaf `z`
and its parent (or `none` when `z` became the root). -/
def BST.insert (s : BST) (key : Int) : BST × Option Nat × Option Nat :=
  match BST.insertLoop s.heap key s.root none (s.nextId + 1) with
  | none => (s, none, none)
  | some (.dup x) => (s, none, some x)
  | some (.slot y) =>
      let z := s.nextId
      let h1 := hset s.heap z ⟨key, none, none, y⟩
      match y with
      | none => (⟨h1, some z, z + 1⟩, some z, none)
      | some yi =>
          if key < (h1 yi).key then (⟨setLeft h1 yi (some z), s.root, z + 1⟩, some z, some yi)
          else (⟨setRight h1 yi (some z), s.root, z + 1⟩, some z, some yi)

/-- The heap after the linking phase of a successful `BST.insert`: the new
leaf `z` is allocated with parent `yi`, and `yi`'s left or right slot is
set according to the key comparison, exactly as in the source. -/
def insHeap (h : Heap) (key : Int) (z yi : Nat) : Heap :=
  let h1 := hset h z ⟨key, none, none, some yi⟩
  if key < (h1 yi).key then setLeft h1 yi (some z) else setRight h1 yi (some z)

/-- The `while` loop of `BST.search`; visited nodes are recorded in order,
the node itself included before the key comparison, as in the source. -/
def BST.searchLoop (h : Heap) (key : Int) : Option Nat → Nat → Option (List Nat × Option Nat)
| _, 0 => none
| none, _ + 1 => some ([], none)
| some xi, fuel + 1 =>
    if key = (h xi).key then some ([xi], some xi)
    else
      match BST.searchLoop h key (if key < (h xi).key then (h xi).left else (h xi).right) fuel with
      | none => none
      | some (p, f) => some (xi :: p, f)

/-- `BST.search`: the visited path and the found node, if any. -/
def BST.search (s : BST) (key : Int) : List Nat × Option Nat :=
  (BST.searchLoop s.heap key s.root (s.nextId + 1)).getD ([], none)

/-- `BST.minimum`: follow left children.  Applying it to the empty
reference is a dereference error in the source (`x.left` with `x = None`),
modelled as `.error ()`; fuel exhaustion (impossible on well-formed trees)
is reported the same way. -/
def BST.minimum (h : Heap) : Option Nat → Nat → Except Unit Nat
| _, 0 => .error ()
| none, _ + 1 => .error ()
| some xi, fuel + 1 =>
    match (h xi).left with
    | none => .ok xi
    | some l => BST.minimum h (some l) fuel

/-- `BST.transplant(u, v)`: replace the subtree rooted at `u` in `u`'s
parent's link (or the tree root), then re-point `v.parent`. -/
def BST.transplant (s : BST) (u : Nat) (v : Option Nat) : BST :=
  let s1 : BST :=
    match (s.heap u).parent with
    | none => { s with root := v }
    | some p =>
        if (s.heap p).left = some u then { s with heap := setLeft s.heap p v }
        else { s with heap := setRight s.heap p v }
  match v with
  | none => s1
  | some vi => { s1 with heap := setParent s1.heap vi (s1.heap u).parent }

/-- The two-children branch of `BST.delete` (source lines 139–147): `z` is
the node being removed, `y = minimum(z.right)` its successor. -/
def BST.deleteTwo (s : BST) (z y : Nat) : BST :=
  let s1 : BST :=
    if (s.heap y).parent ≠ some z then
      let sa := BST.transplant s y (s.heap y).right
      let hb := setRight sa.heap y (sa.heap z).right
      { sa with heap := match (hb y).right with
                        | some ri => setParent hb ri (some y)
                        | none => hb }
    else s
  let s2 := BST.transplant s1 z (some y)
  let hd := setLeft s2.heap y (s2.heap z).left
  { s2 with heap := match (hd y).left with
                    | some li => setParent hd li (some y)
                    | none => hd }

/-- `BST.delete`: CLRS three-case removal; returns the detached node or
`none` when the key is absent. -/
def BST.delete (s : BST) (key : Int) : BST × Option Nat :=
  match (BST.search s key).2 with
  | none => (s, none)
  | some z =>
      match (s.heap z).left, (s.heap z).right with
      | none, _ => (BST.transplant s z (s.heap z).right, some z)
      | some _, none => (BST.transplant s z (s.heap z).left, some z)
      | some _, some zr =>
          match BST.minimum s.heap (some zr) (s.nextId + 1) with
          | .error _ => (s, none)
          | .ok y => (BST.deleteTwo s z y, some z)

/-- The recursive `dfs` of `BST.inorder`: left subtree, key, right
subtree. -/
def inorderAux (h : Heap) : Nat → Option Nat → List Int
| 0, _ => []
| _ + 1, none => []
| fuel + 1, some i => inorderAux h fuel (h i).left ++ (h i).key :: inorderAux h fuel (h i).right

/-- `BST.inorder`: the keys in left–node–right order. -/
def BST.inorder (s : BST) : List Int := inorderAux s.heap (s.nextId + 1) s.root

/-- The recursive `dfs` of `BST.nodes`, collecting node identities. -/
def nodesAux (h : Heap) : Nat → Option Nat → List Nat
| 0, _ => []
| _ + 1, none => []
| fuel + 1, some i => nodesAux h fuel (h i).left ++ i :: nodesAux h fuel (h i).right

/-- `BST.nodes`: node ids in inorder. -/
def BST.nodes (s : BST) : List Nat := nodesAux s.heap (s.nextId + 1) s.root

/-- The recursive `h` of `BST.depth`. -/
def depthAux (h : Heap) : Nat → Option Nat → Nat
| 0, _ => 0
| _ + 1, none => 0
| fuel + 1, some i => 1 + max (depthAux h fuel (h i).left) (depthAux h fuel (h i).right)

/-- `BST.depth`: height of the tree, `0` when empty. -/
def BST.depth (s : BST) : Nat := depthAux s.heap (s.nextId + 1) s.root

/-- `BST.clear`: drop the root reference. -/
def BST.clear (s : BST) : BST := { s with root := none }

/-- Keys of the subtree hanging from an optional reference, as computed
by the inorder traversal of the code. -/
def subKeys (s : BST) (x : Option Nat) : List Int := inorderAux s.heap (s.nextId + 1) x

/-! ### Algebraic abstraction: trees of ids and keys -/

/-- Abstraction of a reachable pointer structure: a binary tree carrying
node ids and keys. -/
inductive Tree where
| leaf : Tree
| node : Nat → Int → Tree → Tree → Tree
deriving DecidableEq

def Tree.rootId : Tree → Option Nat
| .leaf => none
| .node i _ _ _ => some i

def Tree.ids : Tree → List Nat
| .leaf => []
| .node i _ l r => l.ids ++ i :: r.ids

def Tree.keys : Tree → List Int
| .leaf => []
| .node _ k l r => l.keys ++ k :: r.keys

def Tree.height : Tree → Nat
| .leaf => 0
| .node _ _ l r => 1 + max l.height r.height

/-- The structural BST ordering invariant. -/
def Ordered : Tree → Prop
| .leaf => True
| .node _ k l r => (∀ k' ∈ l.keys, k' < k) ∧ (∀ k' ∈ r.keys, k < k') ∧ Ordered l ∧ Ordered r

/-- One-hole tree contexts, innermost frame first: `lf i k r c` says the
hole is the left child of node `(i, k)` whose right subtree is `r`, inside
the outer context `c`. -/
inductive Ctx where
| top : Ctx
| lf : Nat → Int → Tree → Ctx → Ctx
| rt : Nat → Int → Tree → Ctx → Ctx

def Ctx.plug : Ctx → Tree → Tree
| .top, t => t
| .lf i k r c, t => Ctx.plug c (.node i k t r)
| .rt i k l c, t => Ctx.plug c (.node i k l t)

/-- Composition: `(c.comp d).plug t = c.plug (d.plug t)` (`d` innermost). -/
def Ctx.comp (c : Ctx) : Ctx → Ctx
| .top => c
| .lf i k r d => .lf i k r (c.comp d)
| .rt i k l d => .rt i k l (c.comp d)

/-- Parent of the hole; `p` is the parent of the whole plugged tree. -/
def Ctx.hp : Ctx → Option Nat → Option Nat
| .top, p => p
| .lf i _ _ _, _ => some i
| .rt i _ _ _, _ => some i

/-- Root id of the plugged tree, given the root id of the hole content. -/
def Ctx.rootD : Ctx → Option Nat → Option Nat
| .top, x => x
| .lf i _ _ c, _ => c.rootD (some i)
| .rt i _ _ c, _ => c.rootD (some i)

/-- Ids appearing before the hole in inorder. -/
def Ctx.idsL : Ctx → List Nat
| .top => []
| .lf _ _ _ c => c.idsL
| .rt i _ l c => c.idsL ++ l.ids ++ [i]

/-- Ids appearing after the hole in inorder. -/
def Ctx.idsR : Ctx → List Nat
| .top => []
| .lf i _ r c => i :: r.ids ++ c.idsR
| .rt _ _ _ c => c.idsR

/-- Keys appearing before the hole in inorder. -/
def Ctx.keysL : Ctx → List Int
| .top => []
| .lf _ _ _ c => c.keysL
| .rt i k l c => c.keysL ++ l.keys ++ [k]

/-- Keys appearing after the hole in inorder. -/
def Ctx.keysR : Ctx → List Int
| .top => []
| .lf i k r c => k :: r.keys ++ c.keysR
| .rt _ _ _ c => c.keysR

def Ctx.allIds (c : Ctx) : List Nat := c.idsL ++ c.idsR

/-- The heap realises the tree: each node cell holds the key and the child
references prescribed by the tree. -/
def IsRepr (h : Heap) : Tree → Prop
| .leaf => True
| .node i k l r =>
    (h i).key = k ∧ (h i).left = l.rootId ∧ (h i).right = r.rootId ∧ IsRepr h l ∧ IsRepr h r

/-- The heap realises the context, whose hole-side pointer is `hole`. -/
def IsReprC (h : Heap) : Ctx → Option Nat → Prop
| .top, _ => True
| .lf i k r c, hole =>
    (h i).key = k ∧ (h i).left = hole ∧ (h i).right = r.rootId ∧ IsRepr h r ∧ IsReprC h c (some i)
| .rt i k l c, hole =>
    (h i).key = k ∧ (h i).right = hole ∧ (h i).left = l.rootId ∧ IsRepr h l ∧ IsReprC h c (some i)

/-- All parent back-references in the tree are consistent, `p` being the
expected parent of the root. -/
def ParentOk (h : Heap) : Option Nat → Tree → Prop
| _, .leaf => True
| p, .node i _ l r => (h i).parent = p ∧ ParentOk h (some i) l ∧ ParentOk h (some i) r

/-- Parent back-references through the context are consistent; `p` is the
parent of the whole plugged tree. -/
def ParentOkC (h : Heap) (p : Option Nat) : Ctx → Prop
| .top => True
| .lf i _ r c => (h i).parent = c.hp p ∧ ParentOk h (some i) r ∧ ParentOkC h p c
| .rt i _ l c => (h i).parent = c.hp p ∧ ParentOk h (some i) l ∧ ParentOkC h p c

/-- Parent consistency of a tree except for its root's own link. -/
def POkInner (h : Heap) : Tree → Prop
| .leaf => True
| .node i _ l r => ParentOk h (some i) l ∧ ParentOk h (some i) r

/-- The full well-formedness relation between a `BST` state and its
abstraction. -/
structure Models (s : BST) (t : Tree) : Prop where
  root_eq : s.root = t.rootId
  repr_ok : IsRepr s.heap t
  pok : ParentOk s.heap none t
  nodup : t.ids.Nodup
  ord : Ordered t
  bound : ∀ i ∈ t.ids, i < s.nextId

/-- A state is well-formed when it models some tree. -/
def Inv (s : BST) : Prop := ∃ t, Models s t

/-- States reachable from the empty tree by inserts and deletes. -/
inductive Reachable : BST → Prop where
| empty : Reachable emptyBST
| ins (s : BST) (k : Int) : Reachable s → Reachable (BST.insert s k).1
| del (s : BST) (k : Int) : Reachable s → Reachable (BST.delete s k).1

/-! ### Specification-level recursions used in proofs -/

/-- `BST.search` at the tree level. -/
def searchA (key : Int) : Tree → List Nat × Option Nat
| .leaf => ([], none)
| .node i k l r =>
    if key = k then ([i], some i)
    else if key < k then (i :: (searchA key l).1, (searchA key l).2)
    else (i :: (searchA key r).1, (searchA key r).2)

/-- The insert descent loop at the tree level. -/
def loopSpec (key : Int) : Tree → Option Nat → InsRes
| .leaf, y => .slot y
| .node i k l r, y =>
    if key = k then .dup i
    else if key < k then loopSpec key l (some i) else loopSpec key r (some i)

/-- The parent slot a fresh key ends up under (meaningful when the key is
absent). -/
def slotOf (key : Int) : Tree → Option Nat → Option Nat
| .leaf, y => y
| .node i k l r, _ => if key < k then slotOf key l (some i) else slotOf key r (some i)

/-- Insertion at the tree level, with `z` the id of the new leaf. -/
def insertAlg (key : Int) (z : Nat) : Tree → Tree
| .leaf => .node z key .leaf .leaf
| .node i k l r =>
    if key = k then .node i k l r
    else if key < k then .node i k (insertAlg key z l) r
    else .node i k l (insertAlg key z r)

/-- Decompose a nonempty tree into the context of its minimum node, the
minimum's id and key, and the minimum's right subtree. -/
def splitMin : Tree → Option (Ctx × Nat × Int × Tree)
| .leaf => none
| .node i k l r =>
    match splitMin l with
    | none => some (.top, i, k, r)
    | some (c, y, ky, ry) => some ((Ctx.lf i k r .top).comp c, y, ky, ry)

/-- The path/result pair `(path, f)` is a correct search trail for `key`
starting at reference `x`: nodes are visited root first, descending left
on smaller and right on larger keys, ending at an equal key or at an empty
reference. -/
def IsSearchPath (h : Heap) (key : Int) : Option Nat → List Nat → Option Nat → Prop
| x, [], f => x = none ∧ f = none
| x, i :: rest, f =>
    x = some i ∧
    (if key = (h i).key then rest = [] ∧ f = some i
     else IsSearchPath h key (if key < (h i).key then (h i).left else (h i).right) rest f)

/-- The state after inserting the spec's demonstration sequence
`[8, 3, 10, 1, 6, 14, 4, 7, 13]` into the empty tree. -/
def demoA : BST := [8, 3, 10, 1, 6, 14, 4, 7, 13].foldl (fun s k => (BST.insert s k).1) emptyBST

/-- The demonstration state after `delete 3`. -/
def demoB : BST := (BST.delete demoA 3).1

instance instDecEqExceptUN : DecidableEq (Except Unit Nat)
| .error a, .error b => isTrue (by cases a; cases b; rfl)
| .error _, .ok _ => isFalse (fun h => Except.noConfusion h)
| .ok _, .error _ => isFalse (fun h => Except.noConfusion h)
| .ok a, .ok b =>
    if h : a = b then isTrue (by rw [h]) else isFalse (fun he => h (by cases he; rfl))

def demoTA : Tree :=
  .node 0 8
    (.node 1 3 (.node 3 1 .leaf .leaf)
      (.node 4 6 (.node 6 4 .leaf .leaf) (.node 7 7 .leaf .leaf)))
    (.node 2 10 .leaf (.node 5 14 (.node 8 13 .leaf .leaf) .leaf))

instance instDecIsRepr (h : Heap) : (t : Tree) → Decidable (IsRepr h t)
| .leaf => .isTrue trivial
| .node i k l r =>
    haveI := instDecIsRepr h l
    haveI := instDecIsRepr h r
    inferInstanceAs (Decidable
      ((h i).key = k ∧ (h i).left = l.rootId ∧ (h i).right = r.rootId ∧ IsRepr h l ∧ IsRepr h r))

instance instDecParentOk (h : Heap) : (p : Option Nat) → (t : Tree) → Decidable (ParentOk h p t)
| _, .leaf => .isTrue trivial
| p, .node i _ l r =>
    haveI := instDecParentOk h (some i) l
    haveI := instDecParentOk h (some i) r
    inferInstanceAs (Decidable ((h i).parent = p ∧ ParentOk h (some i) l ∧ ParentOk h (some i) r))

instance instDecOrdered : (t : Tree) → Decidable (Ordered t)
| .leaf => .isTrue trivial
| .node _ k l r =>
    haveI := instDecOrdered l
    haveI := instDecOrdered r
    inferInstanceAs (Decidable
      ((∀ k' ∈ l.keys, k' < k) ∧ (∀ k' ∈ r.keys, k < k') ∧ Ordered l ∧ Ordered r))

/-! ### Heap cell lemmas -/

theorem hset_same (h : Heap) (i : Nat) (n : Node) : hset h i n i = n := by simp [hset]

theorem hset_ne (h : Heap) (i : Nat) (n : Node) {j : Nat} (hj : j ≠ i) : hset h i n j = h j := by
  simp [hset, hj]

theorem setLeft_same (h : Heap) (i : Nat) (v : Option Nat) :
    setLeft h i v i = { h i with left := v } := hset_same _ _ _

theorem setLeft_ne (h : Heap) (i : Nat) (v : Option Nat) {j : Nat} (hj : j ≠ i) :
    setLeft h i v j = h j := hset_ne _ _ _ hj

theorem setRight_same (h : Heap) (i : Nat) (v : Option Nat) :
    setRight h i v i = { h i with right := v } := hset_same _ _ _

theorem setRight_ne (h : Heap) (i : Nat) (v : Option Nat) {j : Nat} (hj : j ≠ i) :
    setRight h i v j = h j := hset_ne _ _ _ hj

theorem setParent_same (h : Heap) (i : Nat) (v : Option Nat) :
    setParent h i v i = { h i with parent := v } := hset_same _ _ _

theorem setParent_ne (h : Heap) (i : Nat) (v : Option Nat) {j : Nat} (hj : j ≠ i) :
    setParent h i v j = h j := hset_ne _ _ _ hj

theorem setLeft_key (h : Heap) (i : Nat) (v : Option Nat) (j : Nat) :
    (setLeft h i v j).key = (h j).key := by
  by_cases hj : j = i
  · subst hj; rw [setLeft_same]
  · rw [setLeft_ne _ _ _ hj]

theorem setLeft_right (h : Heap) (i : Nat) (v : Option Nat) (j : Nat) :
    (setLeft h i v j).right = (h j).right := by
  by_cases hj : j = i
  · subst hj; rw [setLeft_same]
  · rw [setLeft_ne _ _ _ hj]

theorem setLeft_parent (h : Heap) (i : Nat) (v : Option Nat) (j : Nat) :
    (setLeft h i v j).parent = (h j).parent := by
  by_cases hj : j = i
  · subst hj; rw [setLeft_same]
  · rw [setLeft_ne _ _ _ hj]

theorem setRight_key (h : Heap) (i : Nat) (v : Option Nat) (j : Nat) :
    (setRight h i v j).key = (h j).key := by
  by_cases hj : j = i
  · subst hj; rw [setRight_same]
  · rw [setRight_ne _ _ _ hj]

theorem setRight_left (h : Heap) (i : Nat) (v : Option Nat) (j : Nat) :
    (setRight h i v j).left = (h j).left := by
  by_cases hj : j = i
  · subst hj; rw [setRight_same]
  · rw [setRight_ne _ _ _ hj]

theorem setRight_parent (h : Heap) (i : Nat) (v : Option Nat) (j : Nat) :
    (setRight h i v j).parent = (h j).parent := by
  by_cases hj : j = i
  · subst hj; rw [setRight_same]
  · rw [setRight_ne _ _ _ hj]

theorem setParent_key (h : Heap) (i : Nat) (v : Option Nat) (j : Nat) :
    (setParent h i v j).key = (h j).key := by
  by_cases hj : j = i
  · subst hj; rw [setParent_same]
  · rw [setParent_ne _ _ _ hj]

theorem setParent_left (h : Heap) (i : Nat) (v : Option Nat) (j : Nat) :
    (setParent h i v j).left = (h j).left := by
  by_cases hj : j = i
  · subst hj; rw [setParent_same]
  · rw [setParent_ne _ _ _ hj]

theorem setParent_right (h : Heap) (i : Nat) (v : Option Nat) (j : Nat) :
    (setParent h i v j).right = (h j).right := by
  by_cases hj : j = i
  · subst hj; rw [setParent_same]
  · rw [setParent_ne _ _ _ hj]

/-! ### Tree basics -/

theorem Tree.rootId_eq_none {t : Tree} : t.rootId = none ↔ t = .leaf := by
  cases t <;> simp [Tree.rootId]

theorem Tree.rootId_node {t : Tree} {j : Nat} (h : t.rootId = some j) :
    ∃ k l r, t = .node j k l r := by
  cases t with
  | leaf => cases h
  | node i k l r =>
      obtain rfl : i = j := by simpa [Tree.rootId] using h
      exact ⟨k, l, r, rfl⟩

theorem Tree.rootId_mem {t : Tree} {j : Nat} (h : t.rootId = some j) : j ∈ t.ids := by
  obtain ⟨k, l, r, rfl⟩ := Tree.rootId_node h
  simp [Tree.ids]

theorem Tree.height_le_length : ∀ t : Tree, t.height ≤ t.ids.length
| .leaf => Nat.le_refl 0
| .node i k l r => by
    have hl := Tree.height_le_length l
    have hr := Tree.height_le_length r
    have h1 : max l.height r.height ≤ l.ids.length + r.ids.length :=
      max_le (hl.trans (Nat.le_add_right _ _)) (hr.trans (Nat.le_add_left _ _))
    simp only [Tree.height, Tree.ids, List.length_append, List.length_cons]
    omega

theorem ordered_iff_sorted : ∀ t : Tree, Ordered t ↔ t.keys.Sorted (· < ·)
| .leaf => by simp [Ordered, Tree.keys]
| .node i k l r => by
    have ihl := ordered_iff_sorted l
    have ihr := ordered_iff_sorted r
    simp only [Ordered, Tree.keys]
    constructor
    · rintro ⟨hlk, hrk, hol, hor⟩
      refine List.pairwise_append.mpr ⟨ihl.mp hol, List.sorted_cons.mpr ⟨hrk, ihr.mp hor⟩, ?_⟩
      intro x hx y hy
      rcases List.mem_cons.mp hy with rfl | hy
      · exact hlk x hx
      · exact (hlk x hx).trans (hrk y hy)
    · intro hs
      obtain ⟨h1, h2, h3⟩ := List.pairwise_append.mp hs
      obtain ⟨h2a, h2b⟩ := List.sorted_cons.mp h2
      exact ⟨fun x hx => h3 x hx k (List.mem_cons_self _ _), h2a, ihl.mpr h1, ihr.mpr h2b⟩

theorem Ordered.sorted {t : Tree} (h : Ordered t) : t.keys.Sorted (· < ·) :=
  (ordered_iff_sorted t).mp h

theorem Ordered.keys_nodup {t : Tree} (h : Ordered t) : t.keys.Nodup := h.sorted.nodup

theorem Tree.mem_ids_node {j i : Nat} {k : Int} {l r : Tree} :
    j ∈ (Tree.node i k l r).ids ↔ j ∈ l.ids ∨ j = i ∨ j ∈ r.ids := by
  simp [Tree.ids]

theorem Tree.mem_keys_node {x k : Int} {i : Nat} {l r : Tree} :
    x ∈ (Tree.node i k l r).keys ↔ x ∈ l.keys ∨ x = k ∨ x ∈ r.keys := by
  simp [Tree.keys]

/-! ### Context lemmas -/

theorem Ctx.plug_comp (c : Ctx) : ∀ (d : Ctx) (t : Tree), (c.comp d).plug t = c.plug (d.plug t)
| .top, _ => rfl
| .lf i k r d, t => Ctx.plug_comp c d (.node i k t r)
| .rt i k l d, t => Ctx.plug_comp c d (.node i k l t)

theorem Ctx.rootId_plug : ∀ (c : Ctx) (t : Tree), (c.plug t).rootId = c.rootD t.rootId
| .top, _ => rfl
| .lf i k r c, t => Ctx.rootId_plug c (.node i k t r)
| .rt i k l c, t => Ctx.rootId_plug c (.node i k l t)

theorem Ctx.rootD_const : ∀ (c : Ctx), c ≠ .top → ∀ x y, c.rootD x = c.rootD y
| .top, h => absurd rfl h
| .lf _ _ _ _, _ => fun _ _ => rfl
| .rt _ _ _ _, _ => fun _ _ => rfl

theorem Ctx.hp_const : ∀ (c : Ctx), c ≠ .top → ∀ x y, c.hp x = c.hp y
| .top, h => absurd rfl h
| .lf _ _ _ _, _ => fun _ _ => rfl
| .rt _ _ _ _, _ => fun _ _ => rfl

theorem Ctx.mem_allIds_lf {j i : Nat} {k : Int} {r : Tree} {c : Ctx} :
    j ∈ (Ctx.lf i k r c).allIds ↔ j = i ∨ j ∈ r.ids ∨ j ∈ c.allIds := by
  simp only [Ctx.allIds, Ctx.idsL, Ctx.idsR, List.mem_append, List.mem_cons]
  tauto

theorem Ctx.mem_allIds_rt {j i : Nat} {k : Int} {l : Tree} {c : Ctx} :
    j ∈ (Ctx.rt i k l c).allIds ↔ j = i ∨ j ∈ l.ids ∨ j ∈ c.allIds := by
  simp only [Ctx.allIds, Ctx.idsL, Ctx.idsR, List.mem_append, List.mem_singleton]
  tauto

theorem Ctx.hp_mem : ∀ (c : Ctx), c ≠ .top → ∀ p, ∃ j, c.hp p = some j ∧ j ∈ c.allIds
| .top, h => absurd rfl h
| .lf i k r c, _ => fun _ => ⟨i, rfl, Ctx.mem_allIds_lf.mpr (Or.inl rfl)⟩
| .rt i k l c, _ => fun _ => ⟨i, rfl, Ctx.mem_allIds_rt.mpr (Or.inl rfl)⟩

theorem Ctx.ids_plug : ∀ (c : Ctx) (t : Tree), (c.plug t).ids = c.idsL ++ t.ids ++ c.idsR
| .top, t => by simp [Ctx.plug, Ctx.idsL, Ctx.idsR]
| .lf i k r c, t => by
    have ih := Ctx.ids_plug c (.node i k t r)
    simpa [Tree.ids, Ctx.idsL, Ctx.idsR, List.append_assoc] using ih
| .rt i k l c, t => by
    have ih := Ctx.ids_plug c (.node i k l t)
    simpa [Tree.ids, Ctx.idsL, Ctx.idsR, List.append_assoc] using ih

theorem Ctx.keys_plug : ∀ (c : Ctx) (t : Tree), (c.plug t).keys = c.keysL ++ t.keys ++ c.keysR
| .top, t => by simp [Ctx.plug, Ctx.keysL, Ctx.keysR]
| .lf i k r c, t => by
    have ih := Ctx.keys_plug c (.node i k t r)
    simpa [Tree.keys, Ctx.keysL, Ctx.keysR, List.append_assoc] using ih
| .rt i k l c, t => by
    have ih := Ctx.keys_plug c (.node i k l t)
    simpa [Tree.keys, Ctx.keysL, Ctx.keysR, List.append_assoc] using ih

theorem Ctx.hp_comp (c : Ctx) : ∀ (d : Ctx) (p : Option Nat), (c.comp d).hp p = d.hp (c.hp p)
| .top, _ => rfl
| .lf _ _ _ _, _ => rfl
| .rt _ _ _ _, _ => rfl

theorem Ctx.rootD_comp (c : Ctx) : ∀ (d : Ctx) (x : Option Nat),
    (c.comp d).rootD x = c.rootD (d.rootD x)
| .top, _ => rfl
| .lf i _ _ d, _ => Ctx.rootD_comp c d (some i)
| .rt i _ _ d, _ => Ctx.rootD_comp c d (some i)

theorem Ctx.rootD_mem : ∀ (c : Ctx) (i : Nat) {cr : Nat},
    c.rootD (some i) = some cr → cr = i ∨ cr ∈ c.allIds
| .top, _ => fun h => Or.inl (Option.some_injective _ h).symm
| .lf j _ r c, i => fun h => by
    rcases Ctx.rootD_mem c j h with rfl | hm
    · exact Or.inr (Ctx.mem_allIds_lf.mpr (Or.inl rfl))
    · exact Or.inr (Ctx.mem_allIds_lf.mpr (Or.inr (Or.inr hm)))
| .rt j _ l c, i => fun h => by
    rcases Ctx.rootD_mem c j h with rfl | hm
    · exact Or.inr (Ctx.mem_allIds_rt.mpr (Or.inl rfl))
    · exact Or.inr (Ctx.mem_allIds_rt.mpr (Or.inr (Or.inr hm)))

theorem Ctx.rootD_mem_ne_top (c : Ctx) (hc : c ≠ .top) {x : Option Nat} {cr : Nat}
    (h : c.rootD x = some cr) : cr ∈ c.allIds := by
  cases c with
  | top => exact absurd rfl hc
  | lf j k r c =>
      rcases Ctx.rootD_mem c j h with rfl | hm
      · exact Ctx.mem_allIds_lf.mpr (Or.inl rfl)
      · exact Ctx.mem_allIds_lf.mpr (Or.inr (Or.inr hm))
  | rt j k l c =>
      rcases Ctx.rootD_mem c j h with rfl | hm
      · exact Ctx.mem_allIds_rt.mpr (Or.inl rfl)
      · exact Ctx.mem_allIds_rt.mpr (Or.inr (Or.inr hm))

theorem Ctx.allIds_lf_perm (i : Nat) (k : Int) (r : Tree) (c : Ctx) :
    List.Perm (Ctx.lf i k r c).allIds (i :: (r.ids ++ c.allIds)) := by
  have h1 : List.Perm (c.idsL ++ i :: (r.ids ++ c.idsR)) (i :: (c.idsL ++ (r.ids ++ c.idsR))) :=
    List.perm_middle
  have h2 : List.Perm (c.idsL ++ (r.ids ++ c.idsR)) (r.ids ++ (c.idsL ++ c.idsR)) := by
    have h3 := (@List.perm_append_comm _ c.idsL r.ids).append_right c.idsR
    simpa [List.append_assoc] using h3
  exact h1.trans (h2.cons i)

theorem Ctx.allIds_rt_perm (i : Nat) (k : Int) (l : Tree) (c : Ctx) :
    List.Perm (Ctx.rt i k l c).allIds (i :: (l.ids ++ c.allIds)) := by
  have he : (Ctx.rt i k l c).allIds = (c.idsL ++ l.ids) ++ i :: c.idsR := by
    simp [Ctx.allIds, Ctx.idsL, Ctx.idsR, List.append_assoc]
  rw [he]
  have h1 : List.Perm ((c.idsL ++ l.ids) ++ i :: c.idsR) (i :: ((c.idsL ++ l.ids) ++ c.idsR)) :=
    List.perm_middle
  have h2 : List.Perm ((c.idsL ++ l.ids) ++ c.idsR) (l.ids ++ (c.idsL ++ c.idsR)) := by
    have h3 := (@List.perm_append_comm _ c.idsL l.ids).append_right c.idsR
    simpa [List.append_assoc] using h3
  exact h1.trans (h2.cons i)

theorem allIds_nodup_lf {i : Nat} {k : Int} {r : Tree} {c : Ctx}
    (h : (Ctx.lf i k r c).allIds.Nodup) :
    i ∉ r.ids ∧ i ∉ c.allIds ∧ r.ids.Nodup ∧ c.allIds.Nodup ∧ ∀ j ∈ r.ids, j ∉ c.allIds := by
  have h2 := (Ctx.allIds_lf_perm i k r c).nodup h
  rw [List.nodup_cons, List.nodup_append] at h2
  obtain ⟨hi, hr, hc, hd⟩ := h2
  refine ⟨fun hm => hi (List.mem_append_left _ hm), fun hm => hi (List.mem_append_right _ hm),
    hr, hc, fun j hj hm => hd hj hm⟩

theorem allIds_nodup_rt {i : Nat} {k : Int} {l : Tree} {c : Ctx}
    (h : (Ctx.rt i k l c).allIds.Nodup) :
    i ∉ l.ids ∧ i ∉ c.allIds ∧ l.ids.Nodup ∧ c.allIds.Nodup ∧ ∀ j ∈ l.ids, j ∉ c.allIds := by
  have h2 := (Ctx.allIds_rt_perm i k l c).nodup h
  rw [List.nodup_cons, List.nodup_append] at h2
  obtain ⟨hi, hr, hc, hd⟩ := h2
  refine ⟨fun hm => hi (List.mem_append_left _ hm), fun hm => hi (List.mem_append_right _ hm),
    hr, hc, fun j hj hm => hd hj hm⟩

/-- Splitting the well-formedness of ids of a plugged tree. -/
theorem nodup_plug {c : Ctx} {t : Tree} (h : (c.plug t).ids.Nodup) :
    t.ids.Nodup ∧ c.allIds.Nodup ∧ ∀ j ∈ t.ids, j ∉ c.allIds := by
  rw [Ctx.ids_plug, List.append_assoc, List.nodup_append] at h
  obtain ⟨h1, h2, h3⟩ := h
  rw [List.nodup_append] at h2
  obtain ⟨h4, h5, h6⟩ := h2
  refine ⟨h4, ?_, ?_⟩
  · rw [Ctx.allIds, List.nodup_append]
    exact ⟨h1, h5, fun a ha hb => h3 ha (List.mem_append_right _ hb)⟩
  · intro j hj hmem
    rcases List.mem_append.mp hmem with hL | hR
    · exact h3 hL (List.mem_append_left _ hj)
    · exact h6 hj hR

/-! ### Decomposition of the representation predicates along a context -/

theorem isRepr_plug {h : Heap} : ∀ (c : Ctx) (t : Tree),
    IsRepr h (c.plug t) ↔ IsReprC h c t.rootId ∧ IsRepr h t
| .top, t => by simp [Ctx.plug, IsReprC]
| .lf i k r c, t => by
    have ih := @isRepr_plug h c (.node i k t r)
    show IsRepr h (c.plug (.node i k t r)) ↔ _
    rw [ih]
    show _ ∧ ((h i).key = k ∧ (h i).left = t.rootId ∧ (h i).right = r.rootId ∧
      IsRepr h t ∧ IsRepr h r) ↔ _
    show _ ↔ ((h i).key = k ∧ (h i).left = t.rootId ∧ (h i).right = r.rootId ∧
      IsRepr h r ∧ IsReprC h c (some i)) ∧ IsRepr h t
    tauto
| .rt i k l c, t => by
    have ih := @isRepr_plug h c (.node i k l t)
    show IsRepr h (c.plug (.node i k l t)) ↔ _
    rw [ih]
    show _ ∧ ((h i).key = k ∧ (h i).left = l.rootId ∧ (h i).right = t.rootId ∧
      IsRepr h l ∧ IsRepr h t) ↔ _
    show _ ↔ ((h i).key = k ∧ (h i).right = t.rootId ∧ (h i).left = l.rootId ∧
      IsRepr h l ∧ IsReprC h c (some i)) ∧ IsRepr h t
    tauto

theorem parentOk_plug {h : Heap} : ∀ (c : Ctx) (p : Option Nat) (t : Tree),
    ParentOk h p (c.plug t) ↔ ParentOkC h p c ∧ ParentOk h (c.hp p) t
| .top, p, t => by simp [Ctx.plug, ParentOkC, Ctx.hp]
| .lf i k r c, p, t => by
    have ih := @parentOk_plug h c p (.node i k t r)
    show ParentOk h p (c.plug (.node i k t r)) ↔ _
    rw [ih]
    show _ ∧ ((h i).parent = c.hp p ∧ ParentOk h (some i) t ∧ ParentOk h (some i) r) ↔ _
    show _ ↔ ((h i).parent = c.hp p ∧ ParentOk h (some i) r ∧ ParentOkC h p c) ∧
      ParentOk h (some i) t
    tauto
| .rt i k l c, p, t => by
    have ih := @parentOk_plug h c p (.node i k l t)
    show ParentOk h p (c.plug (.node i k l t)) ↔ _
    rw [ih]
    show _ ∧ ((h i).parent = c.hp p ∧ ParentOk h (some i) l ∧ ParentOk h (some i) t) ↔ _
    show _ ↔ ((h i).parent = c.hp p ∧ ParentOk h (some i) l ∧ ParentOkC h p c) ∧
      ParentOk h (some i) t
    tauto

theorem isReprC_comp {h : Heap} (c : Ctx) : ∀ (d : Ctx) (x : Option Nat),
    IsReprC h (c.comp d) x ↔ IsReprC h d x ∧ IsReprC h c (d.rootD x)
| .top, x => by simp [Ctx.comp, IsReprC, Ctx.rootD]
| .lf i k r d, x => by
    have ih := @isReprC_comp h c d (some i)
    show (h i).key = k ∧ (h i).left = x ∧ (h i).right = r.rootId ∧ IsRepr h r ∧
      IsReprC h (c.comp d) (some i) ↔ _
    rw [ih]
    show _ ↔ ((h i).key = k ∧ (h i).left = x ∧ (h i).right = r.rootId ∧ IsRepr h r ∧
      IsReprC h d (some i)) ∧ IsReprC h c (d.rootD (some i))
    tauto
| .rt i k l d, x => by
    have ih := @isReprC_comp h c d (some i)
    show (h i).key = k ∧ (h i).right = x ∧ (h i).left = l.rootId ∧ IsRepr h l ∧
      IsReprC h (c.comp d) (some i) ↔ _
    rw [ih]
    show _ ↔ ((h i).key = k ∧ (h i).right = x ∧ (h i).left = l.rootId ∧ IsRepr h l ∧
      IsReprC h d (some i)) ∧ IsReprC h c (d.rootD (some i))
    tauto

theorem parentOkC_comp {h : Heap} (c : Ctx) : ∀ (d : Ctx) (p : Option Nat),
    ParentOkC h p (c.comp d) ↔ ParentOkC h p c ∧ ParentOkC h (c.hp p) d
| .top, p => by simp [Ctx.comp, ParentOkC]
| .lf i k r d, p => by
    have ih := @parentOkC_comp h c d p
    show (h i).parent = (c.comp d).hp p ∧ ParentOk h (some i) r ∧ ParentOkC h p (c.comp d) ↔ _
    rw [ih, Ctx.hp_comp]
    show _ ↔ _ ∧ ((h i).parent = d.hp (c.hp p) ∧ ParentOk h (some i) r ∧ ParentOkC h (c.hp p) d)
    tauto
| .rt i k l d, p => by
    have ih := @parentOkC_comp h c d p
    show (h i).parent = (c.comp d).hp p ∧ ParentOk h (some i) l ∧ ParentOkC h p (c.comp d) ↔ _
    rw [ih, Ctx.hp_comp]
    show _ ↔ _ ∧ ((h i).parent = d.hp (c.hp p) ∧ ParentOk h (some i) l ∧ ParentOkC h (c.hp p) d)
    tauto

/-! ### Frame lemmas: unchanged cells preserve the predicates -/

theorem isRepr_ext {h h' : Heap} : ∀ {t : Tree},
    (∀ j ∈ t.ids, (h' j).key = (h j).key ∧ (h' j).left = (h j).left ∧
      (h' j).right = (h j).right) →
    IsRepr h t → IsRepr h' t
| .leaf, _, _ => trivial
| .node i k l r, H, hr => by
    obtain ⟨h1, h2, h3, h4, h5⟩ := hr
    have hi := H i (Tree.mem_ids_node.mpr (Or.inr (Or.inl rfl)))
    exact ⟨hi.1.trans h1, hi.2.1.trans h2, hi.2.2.trans h3,
      isRepr_ext (fun j hj => H j (Tree.mem_ids_node.mpr (Or.inl hj))) h4,
      isRepr_ext (fun j hj => H j (Tree.mem_ids_node.mpr (Or.inr (Or.inr hj)))) h5⟩

theorem parentOk_ext {h h' : Heap} : ∀ {t : Tree} {p : Option Nat},
    (∀ j ∈ t.ids, (h' j).parent = (h j).parent) → ParentOk h p t → ParentOk h' p t
| .leaf, _, _, _ => trivial
| .node i k l r, p, H, hp => by
    obtain ⟨h1, h2, h3⟩ := hp
    exact ⟨(H i (Tree.mem_ids_node.mpr (Or.inr (Or.inl rfl)))).trans h1,
      parentOk_ext (fun j hj => H j (Tree.mem_ids_node.mpr (Or.inl hj))) h2,
      parentOk_ext (fun j hj => H j (Tree.mem_ids_node.mpr (Or.inr (Or.inr hj)))) h3⟩

theorem isReprC_ext {h h' : Heap} : ∀ {c : Ctx} {x : Option Nat},
    (∀ j ∈ c.allIds, (h' j).key = (h j).key ∧ (h' j).left = (h j).left ∧
      (h' j).right = (h j).right) →
    IsReprC h c x → IsReprC h' c x
| .top, _, _, _ => trivial
| .lf i k r c, x, H, hr => by
    obtain ⟨h1, h2, h3, h4, h5⟩ := hr
    have hi := H i (Ctx.mem_allIds_lf.mpr (Or.inl rfl))
    exact ⟨hi.1.trans h1, hi.2.1.trans h2, hi.2.2.trans h3,
      isRepr_ext (fun j hj => H j (Ctx.mem_allIds_lf.mpr (Or.inr (Or.inl hj)))) h4,
      isReprC_ext (fun j hj => H j (Ctx.mem_allIds_lf.mpr (Or.inr (Or.inr hj)))) h5⟩
| .rt i k l c, x, H, hr => by
    obtain ⟨h1, h2, h3, h4, h5⟩ := hr
    have hi := H i (Ctx.mem_allIds_rt.mpr (Or.inl rfl))
    exact ⟨hi.1.trans h1, hi.2.2.trans h2, hi.2.1.trans h3,
      isRepr_ext (fun j hj => H j (Ctx.mem_allIds_rt.mpr (Or.inr (Or.inl hj)))) h4,
      isReprC_ext (fun j hj => H j (Ctx.mem_allIds_rt.mpr (Or.inr (Or.inr hj)))) h5⟩

theorem parentOkC_ext {h h' : Heap} : ∀ {c : Ctx} {p : Option Nat},
    (∀ j ∈ c.allIds, (h' j).parent = (h j).parent) → ParentOkC h p c → ParentOkC h' p c
| .top, _, _, _ => trivial
| .lf i k r c, p, H, hp => by
    obtain ⟨h1, h2, h3⟩ := hp
    exact ⟨(H i (Ctx.mem_allIds_lf.mpr (Or.inl rfl))).trans h1,
      parentOk_ext (fun j hj => H j (Ctx.mem_allIds_lf.mpr (Or.inr (Or.inl hj)))) h2,
      parentOkC_ext (fun j hj => H j (Ctx.mem_allIds_lf.mpr (Or.inr (Or.inr hj)))) h3⟩
| .rt i k l c, p, H, hp => by
    obtain ⟨h1, h2, h3⟩ := hp
    exact ⟨(H i (Ctx.mem_allIds_rt.mpr (Or.inl rfl))).trans h1,
      parentOk_ext (fun j hj => H j (Ctx.mem_allIds_rt.mpr (Or.inr (Or.inl hj)))) h2,
      parentOkC_ext (fun j hj => H j (Ctx.mem_allIds_rt.mpr (Or.inr (Or.inr hj)))) h3⟩

theorem pokInner_of_parentOk {h : Heap} {p : Option Nat} : ∀ {t : Tree},
    ParentOk h p t → POkInner h t
| .leaf, _ => trivial
| .node _ _ _ _, hp => ⟨hp.2.1, hp.2.2⟩

theorem parentOk_reroot {h h' : Heap} {p q : Option Nat} {i : Nat} {k : Int} {l r : Tree}
    (hold : ParentOk h p (.node i k l r))
    (hroot : (h' i).parent = q)
    (hrest : ∀ j, j ∈ l.ids ∨ j ∈ r.ids → (h' j).parent = (h j).parent) :
    ParentOk h' q (.node i k l r) :=
  ⟨hroot, parentOk_ext (fun j hj => hrest j (Or.inl hj)) hold.2.1,
   parentOk_ext (fun j hj => hrest j (Or.inr hj)) hold.2.2⟩

/-- Re-pointing the outermost frame of a context: if only the parent field
of the context's outermost node changes (to `q`), the context stays
parent-consistent relative to the new parent `q`. -/
theorem parentOkC_reroot {h h' : Heap} : ∀ {c : Ctx} {p q : Option Nat} {cr : Nat},
    c.rootD none = some cr →
    c.allIds.Nodup →
    ParentOkC h p c →
    (h' cr).parent = q →
    (∀ j ∈ c.allIds, j ≠ cr → (h' j).parent = (h j).parent) →
    ParentOkC h' q c := by
  intro c
  induction c with
  | top => intro p q cr hcr; cases hcr
  | lf i k r c ih =>
      intro p q cr hcr hnd hok hroot hrest
      obtain ⟨hinr, hinc, hndr, hndc, hdisj⟩ := allIds_nodup_lf hnd
      obtain ⟨hpar, hr, hc⟩ := hok
      by_cases hct : c = Ctx.top
      · subst hct
        obtain rfl : i = cr := by simpa [Ctx.rootD] using hcr
        refine ⟨hroot, parentOk_ext (fun j hj => hrest j ?_ ?_) hr, trivial⟩
        · exact Ctx.mem_allIds_lf.mpr (Or.inr (Or.inl hj))
        · exact fun he => hinr (he ▸ hj)
      · have hcr' : c.rootD none = some cr := by
          rw [Ctx.rootD_const c hct none (some i)]; exact hcr
        have hcrmem : cr ∈ c.allIds := Ctx.rootD_mem_ne_top c hct hcr'
        have hine : i ≠ cr := fun he => hinc (he ▸ hcrmem)
        refine ⟨?_, parentOk_ext (fun j hj => hrest j (Ctx.mem_allIds_lf.mpr (Or.inr (Or.inl hj)))
            (fun he => hdisj j hj (he ▸ hcrmem))) hr,
          ih hcr' hndc hc hroot
            (fun j hj hne => hrest j (Ctx.mem_allIds_lf.mpr (Or.inr (Or.inr hj))) hne)⟩
        rw [hrest i (Ctx.mem_allIds_lf.mpr (Or.inl rfl)) hine, hpar]
        exact Ctx.hp_const c hct p q ▸ rfl
  | rt i k l c ih =>
      intro p q cr hcr hnd hok hroot hrest
      obtain ⟨hinr, hinc, hndr, hndc, hdisj⟩ := allIds_nodup_rt hnd
      obtain ⟨hpar, hr, hc⟩ := hok
      by_cases hct : c = Ctx.top
      · subst hct
        obtain rfl : i = cr := by simpa [Ctx.rootD] using hcr
        refine ⟨hroot, parentOk_ext (fun j hj => hrest j ?_ ?_) hr, trivial⟩
        · exact Ctx.mem_allIds_rt.mpr (Or.inr (Or.inl hj))
        · exact fun he => hinr (he ▸ hj)
      · have hcr' : c.rootD none = some cr := by
          rw [Ctx.rootD_const c hct none (some i)]; exact hcr
        have hcrmem : cr ∈ c.allIds := Ctx.rootD_mem_ne_top c hct hcr'
        have hine : i ≠ cr := fun he => hinc (he ▸ hcrmem)
        refine ⟨?_, parentOk_ext (fun j hj => hrest j (Ctx.mem_allIds_rt.mpr (Or.inr (Or.inl hj)))
            (fun he => hdisj j hj (he ▸ hcrmem))) hr,
          ih hcr' hndc hc hroot
            (fun j hj hne => hrest j (Ctx.mem_allIds_rt.mpr (Or.inr (Or.inr hj))) hne)⟩
        rw [hrest i (Ctx.mem_allIds_rt.mpr (Or.inl rfl)) hine, hpar]
        exact Ctx.hp_const c hct p q ▸ rfl

theorem Ctx.keysL_comp (c : Ctx) : ∀ d : Ctx, (c.comp d).keysL = c.keysL ++ d.keysL
| .top => by simp [Ctx.comp, Ctx.keysL]
| .lf i k r d => by simp [Ctx.comp, Ctx.keysL, Ctx.keysL_comp c d]
| .rt i k l d => by simp [Ctx.comp, Ctx.keysL, Ctx.keysL_comp c d, List.append_assoc]

theorem Ctx.keysR_comp (c : Ctx) : ∀ d : Ctx, (c.comp d).keysR = d.keysR ++ c.keysR
| .top => by simp [Ctx.comp, Ctx.keysR]
| .lf i k r d => by simp [Ctx.comp, Ctx.keysR, Ctx.keysR_comp c d, List.append_assoc]
| .rt i k l d => by simp [Ctx.comp, Ctx.keysR, Ctx.keysR_comp c d]

theorem Ctx.idsL_comp (c : Ctx) : ∀ d : Ctx, (c.comp d).idsL = c.idsL ++ d.idsL
| .top => by simp [Ctx.comp, Ctx.idsL]
| .lf i k r d => by simp [Ctx.comp, Ctx.idsL, Ctx.idsL_comp c d]
| .rt i k l d => by simp [Ctx.comp, Ctx.idsL, Ctx.idsL_comp c d, List.append_assoc]

theorem Ctx.idsR_comp (c : Ctx) : ∀ d : Ctx, (c.comp d).idsR = d.idsR ++ c.idsR
| .top => by simp [Ctx.comp, Ctx.idsR]
| .lf i k r d => by simp [Ctx.comp, Ctx.idsR, Ctx.idsR_comp c d, List.append_assoc]
| .rt i k l d => by simp [Ctx.comp, Ctx.idsR, Ctx.idsR_comp c d]

/-! ### Agreement of the fuel-bounded loops with the abstraction -/

theorem inorderAux_spec {h : Heap} : ∀ {t : Tree} {fuel : Nat},
    IsRepr h t → t.height < fuel → inorderAux h fuel t.rootId = t.keys := by
  intro t
  induction t with
  | leaf =>
      intro fuel _ hf
      cases fuel with
      | zero => omega
      | succ f => rfl
  | node i k l r ihl ihr =>
      intro fuel hr hf
      obtain ⟨h1, h2, h3, h4, h5⟩ := hr
      cases fuel with
      | zero => exact absurd hf (by omega)
      | succ f =>
          have hm1 := Nat.le_max_left l.height r.height
          have hm2 := Nat.le_max_right l.height r.height
          have hf' : 1 + max l.height r.height < f + 1 := hf
          have hfl : l.height < f := by omega
          have hfr : r.height < f := by omega
          show inorderAux h f (h i).left ++ (h i).key :: inorderAux h f (h i).right = _
          rw [h1, h2, h3, ihl h4 hfl, ihr h5 hfr]
          rfl

theorem nodesAux_spec {h : Heap} : ∀ {t : Tree} {fuel : Nat},
    IsRepr h t → t.height < fuel → nodesAux h fuel t.rootId = t.ids := by
  intro t
  induction t with
  | leaf =>
      intro fuel _ hf
      cases fuel with
      | zero => omega
      | succ f => rfl
  | node i k l r ihl ihr =>
      intro fuel hr hf
      obtain ⟨h1, h2, h3, h4, h5⟩ := hr
      cases fuel with
      | zero => exact absurd hf (by omega)
      | succ f =>
          have hm1 := Nat.le_max_left l.height r.height
          have hm2 := Nat.le_max_right l.height r.height
          have hf' : 1 + max l.height r.height < f + 1 := hf
          have hfl : l.height < f := by omega
          have hfr : r.height < f := by omega
          show nodesAux h f (h i).left ++ i :: nodesAux h f (h i).right = _
          rw [h2, h3, ihl h4 hfl, ihr h5 hfr]
          rfl

theorem depthAux_spec {h : Heap} : ∀ {t : Tree} {fuel : Nat},
    IsRepr h t → t.height < fuel → depthAux h fuel t.rootId = t.height := by
  intro t
  induction t with
  | leaf =>
      intro fuel _ hf
      cases fuel with
      | zero => omega
      | succ f => rfl
  | node i k l r ihl ihr =>
      intro fuel hr hf
      obtain ⟨h1, h2, h3, h4, h5⟩ := hr
      cases fuel with
      | zero => exact absurd hf (by omega)
      | succ f =>
          have hm1 := Nat.le_max_left l.height r.height
          have hm2 := Nat.le_max_right l.height r.height
          have hf' : 1 + max l.height r.height < f + 1 := hf
          have hfl : l.height < f := by omega
          have hfr : r.height < f := by omega
          show 1 + max (depthAux h f (h i).left) (depthAux h f (h i).right) = _
          rw [h2, h3, ihl h4 hfl, ihr h5 hfr]
          rfl

theorem searchLoop_spec {h : Heap} (key : Int) : ∀ {t : Tree} {fuel : Nat},
    IsRepr h t → t.height < fuel →
    BST.searchLoop h key t.rootId fuel = some (searchA key t) := by
  intro t
  induction t with
  | leaf =>
      intro fuel _ hf
      cases fuel with
      | zero => omega
      | succ f => rfl
  | node i k l r ihl ihr =>
      intro fuel hr hf
      obtain ⟨h1, h2, h3, h4, h5⟩ := hr
      cases fuel with
      | zero => exact absurd hf (by omega)
      | succ f =>
          have hm1 := Nat.le_max_left l.height r.height
          have hm2 := Nat.le_max_right l.height r.height
          have hf' : 1 + max l.height r.height < f + 1 := hf
          have hfl : l.height < f := by omega
          have hfr : r.height < f := by omega
          show BST.searchLoop h key (some i) (f + 1) = some (searchA key (.node i k l r))
          rw [BST.searchLoop, h1, h2, h3, searchA]
          by_cases he : key = k
          · rw [if_pos he, if_pos he]
          · rw [if_neg he, if_neg he]
            by_cases hlt : key < k
            · rw [if_pos hlt, if_pos hlt, ihl h4 hfl]
            · rw [if_neg hlt, if_neg hlt, ihr h5 hfr]

theorem insertLoop_spec {h : Heap} (key : Int) : ∀ {t : Tree} {fuel : Nat} (y0 : Option Nat),
    IsRepr h t → t.height < fuel →
    BST.insertLoop h key t.rootId y0 fuel = some (loopSpec key t y0) := by
  intro t
  induction t with
  | leaf =>
      intro fuel y0 _ hf
      cases fuel with
      | zero => omega
      | succ f => rfl
  | node i k l r ihl ihr =>
      intro fuel y0 hr hf
      obtain ⟨h1, h2, h3, h4, h5⟩ := hr
      cases fuel with
      | zero => exact absurd hf (by omega)
      | succ f =>
          have hm1 := Nat.le_max_left l.height r.height
          have hm2 := Nat.le_max_right l.height r.height
          have hf' : 1 + max l.height r.height < f + 1 := hf
          have hfl : l.height < f := by omega
          have hfr : r.height < f := by omega
          show BST.insertLoop h key (some i) y0 (f + 1) = some (loopSpec key (.node i k l r) y0)
          rw [BST.insertLoop, h1, h2, h3, loopSpec]
          by_cases he : key = k
          · rw [if_pos he, if_pos he]
          · rw [if_neg he, if_neg he]
            by_cases hlt : key < k
            · rw [if_pos hlt, if_pos hlt, ihl (some i) h4 hfl]
            · rw [if_neg hlt, if_neg hlt, ihr (some i) h5 hfr]

theorem splitMin_eq_none : ∀ {t : Tree}, splitMin t = none ↔ t = .leaf
| .leaf => by simp [splitMin]
| .node i k l r => by
    cases hl : splitMin l with
    | none => simp [splitMin, hl]
    | some q => obtain ⟨c, y, ky, ry⟩ := q; simp [splitMin, hl]

theorem splitMin_plug : ∀ {t : Tree} {c : Ctx} {y : Nat} {ky : Int} {ry : Tree},
    splitMin t = some (c, y, ky, ry) → t = c.plug (.node y ky .leaf ry)
| .leaf, c, y, ky, ry => by intro hsp; cases hsp
| .node i k l r, c, y, ky, ry => by
    intro hsp
    cases hl : splitMin l with
    | none =>
        rw [splitMin, hl] at hsp
        obtain ⟨rfl, rfl, rfl, rfl⟩ : Ctx.top = c ∧ i = y ∧ k = ky ∧ r = ry := by
          simpa using hsp
        rw [splitMin_eq_none.mp hl]
        rfl
    | some q =>
        obtain ⟨c', y', ky', ry'⟩ := q
        rw [splitMin, hl] at hsp
        obtain ⟨rfl, rfl, rfl, rfl⟩ :
            (Ctx.lf i k r Ctx.top).comp c' = c ∧ y' = y ∧ ky' = ky ∧ ry' = ry := by
          simpa using hsp
        have ihl := splitMin_plug hl
        rw [Ctx.plug_comp, ihl]
        rfl

theorem splitMin_nil : ∀ {t : Tree} {c : Ctx} {y : Nat} {ky : Int} {ry : Tree},
    splitMin t = some (c, y, ky, ry) → c.idsL = [] ∧ c.keysL = []
| .leaf, c, y, ky, ry => by intro hsp; cases hsp
| .node i k l r, c, y, ky, ry => by
    intro hsp
    cases hl : splitMin l with
    | none =>
        rw [splitMin, hl] at hsp
        obtain ⟨rfl, rfl, rfl, rfl⟩ : Ctx.top = c ∧ i = y ∧ k = ky ∧ r = ry := by
          simpa using hsp
        exact ⟨rfl, rfl⟩
    | some q =>
        obtain ⟨c', y', ky', ry'⟩ := q
        rw [splitMin, hl] at hsp
        obtain ⟨rfl, rfl, rfl, rfl⟩ :
            (Ctx.lf i k r Ctx.top).comp c' = c ∧ y' = y ∧ ky' = ky ∧ ry' = ry := by
          simpa using hsp
        have ih := splitMin_nil hl
        constructor
        · rw [Ctx.idsL_comp]
          simp [Ctx.idsL, ih.1]
        · rw [Ctx.keysL_comp]
          simp [Ctx.keysL, ih.2]

theorem minimum_spec {h : Heap} : ∀ {t : Tree} {fuel : Nat} {c : Ctx} {y : Nat} {ky : Int}
    {ry : Tree}, IsRepr h t → t.height < fuel → splitMin t = some (c, y, ky, ry) →
    BST.minimum h t.rootId fuel = .ok y := by
  intro t
  induction t with
  | leaf => intro fuel c y ky ry _ _ hsp; cases hsp
  | node i k l r ihl ihr =>
      intro fuel c y ky ry hr hf hsp
      obtain ⟨h1, h2, h3, h4, h5⟩ := hr
      cases fuel with
      | zero => exact absurd hf (by omega)
      | succ f =>
          have hm1 := Nat.le_max_left l.height r.height
          have hf' : 1 + max l.height r.height < f + 1 := hf
          have hfl : l.height < f := by omega
          show BST.minimum h (some i) (f + 1) = .ok y
          rw [BST.minimum, h2]
          cases hl : splitMin l with
          | none =>
              rw [splitMin, hl] at hsp
              obtain ⟨rfl, rfl, rfl, rfl⟩ : Ctx.top = c ∧ i = y ∧ k = ky ∧ r = ry := by
                simpa using hsp
              rw [splitMin_eq_none.mp hl]
              rfl
          | some q =>
              obtain ⟨c', y', ky', ry'⟩ := q
              rw [splitMin, hl] at hsp
              obtain ⟨rfl, rfl, rfl, rfl⟩ :
                  (Ctx.lf i k r Ctx.top).comp c' = c ∧ y' = y ∧ ky' = ky ∧ ry' = ry := by
                simpa using hsp
              have hlne : l ≠ .leaf := fun he => by
                rw [he] at hl; cases hl
              cases hlr : l.rootId with
              | none => exact absurd (Tree.rootId_eq_none.mp hlr) hlne
              | some li =>
                  have := ihl h4 hfl hl
                  rw [hlr] at this
                  exact this

/-! ### Search and slot lemmas at the tree level -/

theorem searchA_none (key : Int) : ∀ {t : Tree}, Ordered t →
    ((searchA key t).2 = none ↔ key ∉ t.keys) := by
  intro t
  induction t with
  | leaf => intro _; simp [searchA, Tree.keys]
  | node i k l r ihl ihr =>
      intro ho
      obtain ⟨hlk, hrk, hol, hor⟩ := ho
      rw [searchA]
      by_cases he : key = k
      · subst he
        simp [Tree.mem_keys_node]
      · rw [if_neg he]
        by_cases hlt : key < k
        · rw [if_pos hlt]
          show (searchA key l).2 = none ↔ _
          rw [ihl hol]
          constructor
          · intro hn hmem
            rcases Tree.mem_keys_node.mp hmem with hm | hm | hm
            · exact hn hm
            · exact he hm
            · exact lt_asymm (hrk key hm) hlt
          · exact fun hn hm => hn (Tree.mem_keys_node.mpr (Or.inl hm))
        · rw [if_neg hlt]
          show (searchA key r).2 = none ↔ _
          rw [ihr hor]
          have hgt : k < key := lt_of_le_of_ne (not_lt.mp hlt) (fun hh => he hh.symm)
          constructor
          · intro hn hmem
            rcases Tree.mem_keys_node.mp hmem with hm | hm | hm
            · exact lt_asymm (hlk key hm) hgt
            · exact he hm
            · exact hn hm
          · exact fun hn hm => hn (Tree.mem_keys_node.mpr (Or.inr (Or.inr hm)))

theorem searchA_some (key : Int) : ∀ {t : Tree} {z : Nat},
    (searchA key t).2 = some z →
    ∃ (c : Ctx) (l r : Tree), t = Ctx.plug c (.node z key l r) := by
  intro t
  induction t with
  | leaf => intro z hz; simp [searchA] at hz
  | node i k l r ihl ihr =>
      intro z hz
      rw [searchA] at hz
      by_cases he : key = k
      · rw [if_pos he] at hz
        obtain rfl : i = z := by simpa using hz
        exact ⟨.top, l, r, by rw [he]; rfl⟩
      · rw [if_neg he] at hz
        by_cases hlt : key < k
        · rw [if_pos hlt] at hz
          obtain ⟨c', l', r', hpl⟩ := ihl hz
          exact ⟨(Ctx.lf i k r .top).comp c', l', r', by rw [Ctx.plug_comp, ← hpl]; rfl⟩
        · rw [if_neg hlt] at hz
          obtain ⟨c', l', r', hpl⟩ := ihr hz
          exact ⟨(Ctx.rt i k l .top).comp c', l', r', by rw [Ctx.plug_comp, ← hpl]; rfl⟩

theorem loopSpec_slot (key : Int) : ∀ (t : Tree) (y0 : Option Nat), key ∉ t.keys →
    loopSpec key t y0 = .slot (slotOf key t y0)
| .leaf, _, _ => rfl
| .node i k l r, y0, hk => by
    have hne : key ≠ k := fun he => hk (Tree.mem_keys_node.mpr (Or.inr (Or.inl he)))
    rw [loopSpec, slotOf, if_neg hne]
    by_cases hlt : key < k
    · rw [if_pos hlt, if_pos hlt]
      exact loopSpec_slot key l (some i) (fun hm => hk (Tree.mem_keys_node.mpr (Or.inl hm)))
    · rw [if_neg hlt, if_neg hlt]
      exact loopSpec_slot key r (some i)
        (fun hm => hk (Tree.mem_keys_node.mpr (Or.inr (Or.inr hm))))

theorem loopSpec_dup (key : Int) : ∀ {t : Tree} (y0 : Option Nat) {z : Nat},
    (searchA key t).2 = some z → loopSpec key t y0 = .dup z
| .leaf, y0, z => fun hz => by simp [searchA] at hz
| .node i k l r, y0, z => fun hz => by
    rw [searchA] at hz
    rw [loopSpec]
    by_cases he : key = k
    · rw [if_pos he] at hz
      obtain rfl : i = z := by simpa using hz
      rw [if_pos he]
    · rw [if_neg he] at hz
      rw [if_neg he]
      by_cases hlt : key < k
      · rw [if_pos hlt] at hz
        rw [if_pos hlt]
        exact loopSpec_dup key (some i) hz
      · rw [if_neg hlt] at hz
        rw [if_neg hlt]
        exact loopSpec_dup key (some i) hz

theorem slotOf_mem (key : Int) : ∀ {t : Tree} (y0 : Option Nat), t ≠ .leaf →
    ∃ yi, slotOf key t y0 = some yi ∧ yi ∈ t.ids
| .leaf, _, hne => absurd rfl hne
| .node i k l r, y0, _ => by
    rw [slotOf]
    by_cases hlt : key < k
    · rw [if_pos hlt]
      by_cases hl : l = Tree.leaf
      · subst hl
        exact ⟨i, rfl, Tree.mem_ids_node.mpr (Or.inr (Or.inl rfl))⟩
      · obtain ⟨yi, h1, h2⟩ := slotOf_mem key (some i) hl
        exact ⟨yi, h1, Tree.mem_ids_node.mpr (Or.inl h2)⟩
    · rw [if_neg hlt]
      by_cases hr : r = Tree.leaf
      · subst hr
        exact ⟨i, rfl, Tree.mem_ids_node.mpr (Or.inr (Or.inl rfl))⟩
      · obtain ⟨yi, h1, h2⟩ := slotOf_mem key (some i) hr
        exact ⟨yi, h1, Tree.mem_ids_node.mpr (Or.inr (Or.inr h2))⟩

theorem mem_ids_decomp : ∀ {t : Tree} {i : Nat}, i ∈ t.ids →
    ∃ c k l r, t = Ctx.plug c (.node i k l r)
| .leaf, i, h => absurd h (by simp [Tree.ids])
| .node j k l r, i, h => by
    rcases Tree.mem_ids_node.mp h with hm | rfl | hm
    · obtain ⟨c', k', l', r', hpl⟩ := mem_ids_decomp hm
      exact ⟨(Ctx.lf j k r .top).comp c', k', l', r', by rw [Ctx.plug_comp, ← hpl]; rfl⟩
    · exact ⟨.top, k, l, r, rfl⟩
    · obtain ⟨c', k', l', r', hpl⟩ := mem_ids_decomp hm
      exact ⟨(Ctx.rt j k l .top).comp c', k', l', r', by rw [Ctx.plug_comp, ← hpl]; rfl⟩

theorem ordered_plug_sub : ∀ {c : Ctx} {t : Tree}, Ordered (c.plug t) → Ordered t
| .top, _, h => h
| .lf _ _ _ c, _, h => (ordered_plug_sub (c := c) h).2.2.1
| .rt _ _ _ c, _, h => (ordered_plug_sub (c := c) h).2.2.2

theorem height_plug_ge : ∀ (c : Ctx) (t : Tree), t.height ≤ (c.plug t).height
| .top, _ => le_refl _
| .lf i k r c, t =>
    le_trans (by have := Nat.le_max_left t.height r.height; show t.height ≤ 1 + _; omega)
      (height_plug_ge c (.node i k t r))
| .rt i k l c, t =>
    le_trans (by have := Nat.le_max_right l.height t.height; show t.height ≤ 1 + _; omega)
      (height_plug_ge c (.node i k l t))

/-! ### Facts derived from `Models` -/

theorem Models.height_lt {s : BST} {t : Tree} (M : Models s t) : t.height < s.nextId + 1 := by
  have hsub : t.ids ⊆ List.range s.nextId := fun i hi => List.mem_range.mpr (M.bound i hi)
  have h1 := (List.subperm_of_subset M.nodup hsub).length_le
  rw [List.length_range] at h1
  have h2 := Tree.height_le_length t
  omega

theorem Models.inorder_eq {s : BST} {t : Tree} (M : Models s t) : BST.inorder s = t.keys := by
  rw [BST.inorder, M.root_eq]
  exact inorderAux_spec M.repr_ok M.height_lt

theorem Models.nodes_eq {s : BST} {t : Tree} (M : Models s t) : BST.nodes s = t.ids := by
  rw [BST.nodes, M.root_eq]
  exact nodesAux_spec M.repr_ok M.height_lt

theorem Models.depth_eq {s : BST} {t : Tree} (M : Models s t) : BST.depth s = t.height := by
  rw [BST.depth, M.root_eq]
  exact depthAux_spec M.repr_ok M.height_lt

theorem Models.search_eq {s : BST} {t : Tree} (M : Models s t) (key : Int) :
    BST.search s key = searchA key t := by
  rw [BST.search, M.root_eq, searchLoop_spec key M.repr_ok M.height_lt]
  rfl

theorem models_empty : Models emptyBST .leaf where
  root_eq := rfl
  repr_ok := trivial
  pok := trivial
  nodup := List.nodup_nil
  ord := trivial
  bound := fun i hi => absurd hi (by simp [Tree.ids])

/-! ### Unfolding equations for `BST.transplant` -/

theorem transplant_eq_root_none (s : BST) (u : Nat) (hp : (s.heap u).parent = none) :
    BST.transplant s u none = { s with root := none } := by
  simp only [BST.transplant, hp]

theorem transplant_eq_root_some (s : BST) (u vr : Nat) (hp : (s.heap u).parent = none) :
    BST.transplant s u (some vr) =
      { s with root := some vr, heap := setParent s.heap vr none } := by
  simp only [BST.transplant, hp]

theorem transplant_eq_left_none (s : BST) (u p : Nat) (hp : (s.heap u).parent = some p)
    (hl : (s.heap p).left = some u) :
    BST.transplant s u none = { s with heap := setLeft s.heap p none } := by
  simp only [BST.transplant, hp, hl, if_pos]

theorem transplant_eq_left_some (s : BST) (u p vr : Nat) (hp : (s.heap u).parent = some p)
    (hl : (s.heap p).left = some u) :
    BST.transplant s u (some vr) =
      { s with heap := setParent (setLeft s.heap p (some vr)) vr (some p) } := by
  simp only [BST.transplant, hp, hl, if_pos]
  congr 1
  rw [setLeft_parent, hp]

theorem transplant_eq_right_none (s : BST) (u p : Nat) (hp : (s.heap u).parent = some p)
    (hl : (s.heap p).left ≠ some u) :
    BST.transplant s u none = { s with heap := setRight s.heap p none } := by
  simp only [BST.transplant, hp, hl, if_neg, if_false]

theorem transplant_eq_right_some (s : BST) (u p vr : Nat) (hp : (s.heap u).parent = some p)
    (hl : (s.heap p).left ≠ some u) :
    BST.transplant s u (some vr) =
      { s with heap := setParent (setRight s.heap p (some vr)) vr (some p) } := by
  simp only [BST.transplant, hp, hl, if_neg, if_false]
  congr 1
  rw [setRight_parent, hp]

theorem nodup_node {i : Nat} {k : Int} {l r : Tree} (h : (Tree.node i k l r).ids.Nodup) :
    i ∉ l.ids ∧ i ∉ r.ids ∧ l.ids.Nodup ∧ r.ids.Nodup ∧ ∀ j ∈ l.ids, j ∉ r.ids := by
  have h2 : (l.ids ++ i :: r.ids).Nodup := h
  rw [List.nodup_append] at h2
  obtain ⟨h3, h4, h5⟩ := h2
  rw [List.nodup_cons] at h4
  exact ⟨fun hm => h5 hm (List.mem_cons_self _ _), h4.1, h3, h4.2,
    fun j hj hm => h5 hj (List.mem_cons_of_mem _ hm)⟩

theorem ne_of_some_ne {a b : Nat} (h : some a ≠ some b) : b ≠ a := fun he => h (by rw [he])

/-! ### The transplant lemma: replacing the hole content of a context -/

/-- Correctness of `BST.transplant`: given a tree decomposed as a context
`c` around the subtree rooted at `uid`, and a replacement subtree `tv`
realised in the heap and disjoint from the context, transplanting re-links
the context around `tv`, preserving all representation and parent
invariants and touching only the hole parent's child slot and `tv`'s
root's parent field. -/
theorem transplant_spec (s : BST) (c : Ctx) (uid : Nat) (tv : Tree)
    (T1 : s.root = c.rootD (some uid))
    (T2 : IsReprC s.heap c (some uid))
    (T3 : (s.heap uid).parent = c.hp none)
    (T4 : c.allIds.Nodup)
    (T5 : uid ∉ c.allIds)
    (T6 : IsRepr s.heap tv)
    (T7 : tv.ids.Nodup)
    (T8 : ∀ j ∈ tv.ids, j ∉ c.allIds ∧ j ≠ uid)
    (T9 : ParentOkC s.heap none c)
    (T10 : POkInner s.heap tv) :
    (BST.transplant s uid tv.rootId).root = c.rootD tv.rootId ∧
    (BST.transplant s uid tv.rootId).nextId = s.nextId ∧
    IsReprC (BST.transplant s uid tv.rootId).heap c tv.rootId ∧
    IsRepr (BST.transplant s uid tv.rootId).heap tv ∧
    ParentOkC (BST.transplant s uid tv.rootId).heap none c ∧
    ParentOk (BST.transplant s uid tv.rootId).heap (c.hp none) tv ∧
    (∀ j, ((BST.transplant s uid tv.rootId).heap j).key = (s.heap j).key) ∧
    (∀ j, tv.rootId ≠ some j →
      ((BST.transplant s uid tv.rootId).heap j).parent = (s.heap j).parent) ∧
    (∀ j, c.hp none ≠ some j →
      ((BST.transplant s uid tv.rootId).heap j).left = (s.heap j).left ∧
      ((BST.transplant s uid tv.rootId).heap j).right = (s.heap j).right) := by
  cases c with
  | top =>
      have hpar : (s.heap uid).parent = none := T3
      cases tv with
      | leaf =>
          simp only [Tree.rootId]
          have hq := transplant_eq_root_none s uid hpar
          have hh : (BST.transplant s uid none).heap = s.heap := by rw [hq]
          have hr : (BST.transplant s uid none).root = none := by rw [hq]
          have hn : (BST.transplant s uid none).nextId = s.nextId := by rw [hq]
          rw [hh, hr, hn]
          exact ⟨rfl, rfl, trivial, trivial, trivial, trivial, fun j => rfl,
            fun j _ => rfl, fun j _ => ⟨rfl, rfl⟩⟩
      | node vr kv lv rv =>
          obtain ⟨hvl, hvr, hndl, hndr, hdlr⟩ := nodup_node T7
          simp only [Tree.rootId]
          have hq := transplant_eq_root_some s uid vr hpar
          have hh : (BST.transplant s uid (some vr)).heap = setParent s.heap vr none := by
            rw [hq]
          have hr : (BST.transplant s uid (some vr)).root = some vr := by rw [hq]
          have hn : (BST.transplant s uid (some vr)).nextId = s.nextId := by rw [hq]
          rw [hh, hr, hn]
          obtain ⟨t1, t2, t3, t4, t5⟩ := T6
          obtain ⟨w1, w2⟩ := T10
          refine ⟨rfl, rfl, trivial, ?_, trivial, ?_, fun j => setParent_key _ _ _ _,
            ?_, fun j _ => ⟨setParent_left _ _ _ _, setParent_right _ _ _ _⟩⟩
          · exact ⟨(setParent_key _ _ _ _).trans t1, (setParent_left _ _ _ _).trans t2,
              (setParent_right _ _ _ _).trans t3,
              isRepr_ext (fun j _ => ⟨setParent_key _ _ _ _, setParent_left _ _ _ _,
                setParent_right _ _ _ _⟩) t4,
              isRepr_ext (fun j _ => ⟨setParent_key _ _ _ _, setParent_left _ _ _ _,
                setParent_right _ _ _ _⟩) t5⟩
          · refine ⟨by rw [setParent_same]; rfl, ?_, ?_⟩
            · exact parentOk_ext
                (fun j hj => by rw [setParent_ne _ _ _ (ne_of_mem_of_not_mem hj hvl)]) w1
            · exact parentOk_ext
                (fun j hj => by rw [setParent_ne _ _ _ (ne_of_mem_of_not_mem hj hvr)]) w2
          · intro j hj
            rw [setParent_ne _ _ _ (ne_of_some_ne hj)]
  | lf p kp rs c' =>
      have hpar : (s.heap uid).parent = some p := T3
      obtain ⟨hk, hlp, hrp, hrs, hc'⟩ := T2
      obtain ⟨hppar, hpokrs, hpokc'⟩ := T9
      obtain ⟨hpnrs, hpnc', hndrs, hndc', hdisj⟩ := allIds_nodup_lf T4
      have hpmem : p ∈ (Ctx.lf p kp rs c').allIds := Ctx.mem_allIds_lf.mpr (Or.inl rfl)
      cases tv with
      | leaf =>
          simp only [Tree.rootId]
          have hq := transplant_eq_left_none s uid p hpar hlp
          have hh : (BST.transplant s uid none).heap = setLeft s.heap p none := by rw [hq]
          have hr : (BST.transplant s uid none).root = s.root := by rw [hq]
          have hn : (BST.transplant s uid none).nextId = s.nextId := by rw [hq]
          rw [hh, hr, hn]
          refine ⟨T1, rfl, ?_, trivial, ?_, trivial, fun j => setLeft_key _ _ _ _,
            fun j _ => setLeft_parent _ _ _ _, ?_⟩
          · refine ⟨(setLeft_key _ _ _ _).trans hk, by rw [setLeft_same], ?_, ?_, ?_⟩
            · rw [setLeft_right]
              exact hrp
            · refine isRepr_ext (fun j hj => ?_) hrs
              rw [setLeft_ne _ _ _ (ne_of_mem_of_not_mem hj hpnrs)]
              exact ⟨rfl, rfl, rfl⟩
            · refine isReprC_ext (fun j hj => ?_) hc'
              rw [setLeft_ne _ _ _ (ne_of_mem_of_not_mem hj hpnc')]
              exact ⟨rfl, rfl, rfl⟩
          · exact ⟨(setLeft_parent _ _ _ _).trans hppar,
              parentOk_ext (fun j _ => setLeft_parent _ _ _ _) hpokrs,
              parentOkC_ext (fun j _ => setLeft_parent _ _ _ _) hpokc'⟩
          · intro j hj
            rw [setLeft_ne _ _ _ (ne_of_some_ne hj)]
            exact ⟨rfl, rfl⟩
      | node vr kv lv rv =>
          obtain ⟨hvl, hvrv, hndl, hndr, hdlr⟩ := nodup_node T7
          have hvmem : vr ∈ (Tree.node vr kv lv rv).ids :=
            Tree.mem_ids_node.mpr (Or.inr (Or.inl rfl))
          have hvall : vr ∉ (Ctx.lf p kp rs c').allIds := (T8 vr hvmem).1
          have hvp : vr ≠ p := (ne_of_mem_of_not_mem hpmem hvall).symm
          have hvrs : vr ∉ rs.ids :=
            fun hm => hvall (Ctx.mem_allIds_lf.mpr (Or.inr (Or.inl hm)))
          have hvc' : vr ∉ c'.allIds :=
            fun hm => hvall (Ctx.mem_allIds_lf.mpr (Or.inr (Or.inr hm)))
          obtain ⟨t1, t2, t3, t4, t5⟩ := T6
          obtain ⟨w1, w2⟩ := T10
          have tvne : ∀ j, j ∈ lv.ids ∨ j ∈ rv.ids → j ≠ p ∧ j ≠ vr := by
            intro j hj
            have hjmem : j ∈ (Tree.node vr kv lv rv).ids := by
              rcases hj with hj | hj
              · exact Tree.mem_ids_node.mpr (Or.inl hj)
              · exact Tree.mem_ids_node.mpr (Or.inr (Or.inr hj))
            refine ⟨(ne_of_mem_of_not_mem hpmem (T8 j hjmem).1).symm, ?_⟩
            rcases hj with hj | hj
            · exact ne_of_mem_of_not_mem hj hvl
            · exact ne_of_mem_of_not_mem hj hvrv
          have hcell : ∀ j, j ≠ p → j ≠ vr →
              setParent (setLeft s.heap p (some vr)) vr (some p) j = s.heap j := by
            intro j hjp hjv
            rw [setParent_ne _ _ _ hjv, setLeft_ne _ _ _ hjp]
          have hcellp :
              setParent (setLeft s.heap p (some vr)) vr (some p) p
                = { s.heap p with left := some vr } := by
            rw [setParent_ne _ _ _ (fun he => hvp he.symm), setLeft_same]
          simp only [Tree.rootId]
          have hq := transplant_eq_left_some s uid p vr hpar hlp
          have hh : (BST.transplant s uid (some vr)).heap
              = setParent (setLeft s.heap p (some vr)) vr (some p) := by rw [hq]
          have hr : (BST.transplant s uid (some vr)).root = s.root := by rw [hq]
          have hn : (BST.transplant s uid (some vr)).nextId = s.nextId := by rw [hq]
          rw [hh, hr, hn]
          refine ⟨T1, rfl, ?_, ?_, ?_, ?_, ?_, ?_, ?_⟩
          · refine ⟨?_, ?_, ?_, ?_, ?_⟩
            · rw [hcellp]
              exact hk
            · rw [hcellp]
            · rw [hcellp]
              exact hrp
            · refine isRepr_ext (fun j hj => ?_) hrs
              rw [hcell j (ne_of_mem_of_not_mem hj hpnrs) (ne_of_mem_of_not_mem hj hvrs)]
              exact ⟨rfl, rfl, rfl⟩
            · refine isReprC_ext (fun j hj => ?_) hc'
              rw [hcell j (ne_of_mem_of_not_mem hj hpnc') (ne_of_mem_of_not_mem hj hvc')]
              exact ⟨rfl, rfl, rfl⟩
          · refine ⟨?_, ?_, ?_, ?_, ?_⟩
            · rw [setParent_key, setLeft_key]
              exact t1
            · rw [setParent_left, setLeft_ne _ _ _ hvp]
              exact t2
            · rw [setParent_right, setLeft_ne _ _ _ hvp]
              exact t3
            · refine isRepr_ext (fun j hj => ?_) t4
              have hne := tvne j (Or.inl hj)
              rw [hcell j hne.1 hne.2]
              exact ⟨rfl, rfl, rfl⟩
            · refine isRepr_ext (fun j hj => ?_) t5
              have hne := tvne j (Or.inr hj)
              rw [hcell j hne.1 hne.2]
              exact ⟨rfl, rfl, rfl⟩
          · refine ⟨?_, ?_, ?_⟩
            · rw [show setParent (setLeft s.heap p (some vr)) vr (some p) p
                  = { s.heap p with left := some vr } from hcellp]
              exact hppar
            · refine parentOk_ext (fun j hj => ?_) hpokrs
              rw [setParent_ne _ _ _ (ne_of_mem_of_not_mem hj hvrs), setLeft_parent]
            · refine parentOkC_ext (fun j hj => ?_) hpokc'
              rw [setParent_ne _ _ _ (ne_of_mem_of_not_mem hj hvc'), setLeft_parent]
          · refine ⟨by rw [setParent_same]; rfl, ?_, ?_⟩
            · refine parentOk_ext (fun j hj => ?_) w1
              rw [setParent_ne _ _ _ (tvne j (Or.inl hj)).2, setLeft_parent]
            · refine parentOk_ext (fun j hj => ?_) w2
              rw [setParent_ne _ _ _ (tvne j (Or.inr hj)).2, setLeft_parent]
          · intro j
            rw [setParent_key, setLeft_key]
          · intro j hj
            rw [setParent_ne _ _ _ (ne_of_some_ne hj), setLeft_parent]
          · intro j hj
            have hjp : j ≠ p := ne_of_some_ne hj
            by_cases hjv : j = vr
            · subst hjv
              constructor
              · rw [setParent_same, setLeft_ne _ _ _ hjp]
              · rw [setParent_same, setLeft_ne _ _ _ hjp]
            · rw [hcell j hjp hjv]
              exact ⟨rfl, rfl⟩
  | rt p kp ls c' =>
      have hpar : (s.heap uid).parent = some p := T3
      obtain ⟨hk, hrp, hlp, hls, hc'⟩ := T2
      obtain ⟨hppar, hpokls, hpokc'⟩ := T9
      obtain ⟨hpnls, hpnc', hndls, hndc', hdisj⟩ := allIds_nodup_rt T4
      have hpmem : p ∈ (Ctx.rt p kp ls c').allIds := Ctx.mem_allIds_rt.mpr (Or.inl rfl)
      have hlsne : (s.heap p).left ≠ some uid := by
        rw [hlp]
        intro he
        exact T5 (Ctx.mem_allIds_rt.mpr (Or.inr (Or.inl (Tree.rootId_mem he))))
      cases tv with
      | leaf =>
          simp only [Tree.rootId]
          have hq := transplant_eq_right_none s uid p hpar hlsne
          have hh : (BST.transplant s uid none).heap = setRight s.heap p none := by rw [hq]
          have hr : (BST.transplant s uid none).root = s.root := by rw [hq]
          have hn : (BST.transplant s uid none).nextId = s.nextId := by rw [hq]
          rw [hh, hr, hn]
          refine ⟨T1, rfl, ?_, trivial, ?_, trivial, fun j => setRight_key _ _ _ _,
            fun j _ => setRight_parent _ _ _ _, ?_⟩
          · refine ⟨(setRight_key _ _ _ _).trans hk, by rw [setRight_same], ?_, ?_, ?_⟩
            · rw [setRight_left]
              exact hlp
            · refine isRepr_ext (fun j hj => ?_) hls
              rw [setRight_ne _ _ _ (ne_of_mem_of_not_mem hj hpnls)]
              exact ⟨rfl, rfl, rfl⟩
            · refine isReprC_ext (fun j hj => ?_) hc'
              rw [setRight_ne _ _ _ (ne_of_mem_of_not_mem hj hpnc')]
              exact ⟨rfl, rfl, rfl⟩
          · exact ⟨(setRight_parent _ _ _ _).trans hppar,
              parentOk_ext (fun j _ => setRight_parent _ _ _ _) hpokls,
              parentOkC_ext (fun j _ => setRight_parent _ _ _ _) hpokc'⟩
          · intro j hj
            rw [setRight_ne _ _ _ (ne_of_some_ne hj)]
            exact ⟨rfl, rfl⟩
      | node vr kv lv rv =>
          obtain ⟨hvl, hvrv, hndl, hndr, hdlr⟩ := nodup_node T7
          have hvmem : vr ∈ (Tree.node vr kv lv rv).ids :=
            Tree.mem_ids_node.mpr (Or.inr (Or.inl rfl))
          have hvall : vr ∉ (Ctx.rt p kp ls c').allIds := (T8 vr hvmem).1
          have hvp : vr ≠ p := (ne_of_mem_of_not_mem hpmem hvall).symm
          have hvls : vr ∉ ls.ids :=
            fun hm => hvall (Ctx.mem_allIds_rt.mpr (Or.inr (Or.inl hm)))
          have hvc' : vr ∉ c'.allIds :=
            fun hm => hvall (Ctx.mem_allIds_rt.mpr (Or.inr (Or.inr hm)))
          obtain ⟨t1, t2, t3, t4, t5⟩ := T6
          obtain ⟨w1, w2⟩ := T10
          have tvne : ∀ j, j ∈ lv.ids ∨ j ∈ rv.ids → j ≠ p ∧ j ≠ vr := by
            intro j hj
            have hjmem : j ∈ (Tree.node vr kv lv rv).ids := by
              rcases hj with hj | hj
              · exact Tree.mem_ids_node.mpr (Or.inl hj)
              · exact Tree.mem_ids_node.mpr (Or.inr (Or.inr hj))
            refine ⟨(ne_of_mem_of_not_mem hpmem (T8 j hjmem).1).symm, ?_⟩
            rcases hj with hj | hj
            · exact ne_of_mem_of_not_mem hj hvl
            · exact ne_of_mem_of_not_mem hj hvrv
          have hcell : ∀ j, j ≠ p → j ≠ vr →
              setParent (setRight s.heap p (some vr)) vr (some p) j = s.heap j := by
            intro j hjp hjv
            rw [setParent_ne _ _ _ hjv, setRight_ne _ _ _ hjp]
          have hcellp :
              setParent (setRight s.heap p (some vr)) vr (some p) p
                = { s.heap p with right := some vr } := by
            rw [setParent_ne _ _ _ (fun he => hvp he.symm), setRight_same]
          simp only [Tree.rootId]
          have hq := transplant_eq_right_some s uid p vr hpar hlsne
          have hh : (BST.transplant s uid (some vr)).heap
              = setParent (setRight s.heap p (some vr)) vr (some p) := by rw [hq]
          have hr : (BST.transplant s uid (some vr)).root = s.root := by rw [hq]
          have hn : (BST.transplant s uid (some vr)).nextId = s.nextId := by rw [hq]
          rw [hh, hr, hn]
          refine ⟨T1, rfl, ?_, ?_, ?_, ?_, ?_, ?_, ?_⟩
          · refine ⟨?_, ?_, ?_, ?_, ?_⟩
            · rw [hcellp]
              exact hk
            · rw [hcellp]
            · rw [hcellp]
              exact hlp
            · refine isRepr_ext (fun j hj => ?_) hls
              rw [hcell j (ne_of_mem_of_not_mem hj hpnls) (ne_of_mem_of_not_mem hj hvls)]
              exact ⟨rfl, rfl, rfl⟩
            · refine isReprC_ext (fun j hj => ?_) hc'
              rw [hcell j (ne_of_mem_of_not_mem hj hpnc') (ne_of_mem_of_not_mem hj hvc')]
              exact ⟨rfl, rfl, rfl⟩
          · refine ⟨?_, ?_, ?_, ?_, ?_⟩
            · rw [setParent_key, setRight_key]
              exact t1
            · rw [setParent_left, setRight_ne _ _ _ hvp]
              exact t2
            · rw [setParent_right, setRight_ne _ _ _ hvp]
              exact t3
            · refine isRepr_ext (fun j hj => ?_) t4
              have hne := tvne j (Or.inl hj)
              rw [hcell j hne.1 hne.2]
              exact ⟨rfl, rfl, rfl⟩
            · refine isRepr_ext (fun j hj => ?_) t5
              have hne := tvne j (Or.inr hj)
              rw [hcell j hne.1 hne.2]
              exact ⟨rfl, rfl, rfl⟩
          · refine ⟨?_, ?_, ?_⟩
            · rw [show setParent (setRight s.heap p (some vr)) vr (some p) p
                  = { s.heap p with right := some vr } from hcellp]
              exact hppar
            · refine parentOk_ext (fun j hj => ?_) hpokls
              rw [setParent_ne _ _ _ (ne_of_mem_of_not_mem hj hvls), setRight_parent]
            · refine parentOkC_ext (fun j hj => ?_) hpokc'
              rw [setParent_ne _ _ _ (ne_of_mem_of_not_mem hj hvc'), setRight_parent]
          · refine ⟨by rw [setParent_same]; rfl, ?_, ?_⟩
            · refine parentOk_ext (fun j hj => ?_) w1
              rw [setParent_ne _ _ _ (tvne j (Or.inl hj)).2, setRight_parent]
            · refine parentOk_ext (fun j hj => ?_) w2
              rw [setParent_ne _ _ _ (tvne j (Or.inr hj)).2, setRight_parent]
          · intro j
            rw [setParent_key, setRight_key]
          · intro j hj
            rw [setParent_ne _ _ _ (ne_of_some_ne hj), setRight_parent]
          · intro j hj
            have hjp : j ≠ p := ne_of_some_ne hj
            by_cases hjv : j = vr
            · subst hjv
              constructor
              · rw [setParent_same, setRight_ne _ _ _ hjp]
              · rw [setParent_same, setRight_ne _ _ _ hjp]
            · rw [hcell j hjp hjv]
              exact ⟨rfl, rfl⟩

/-! ### Insert: unfolding equations and tree-level facts -/

theorem insert_eq_dup (s : BST) (key : Int) (x : Nat)
    (hl : BST.insertLoop s.heap key s.root none (s.nextId + 1) = some (.dup x)) :
    BST.insert s key = (s, none, some x) := by
  rw [BST.insert, hl]

theorem insert_eq_slot_root (s : BST) (key : Int)
    (hl : BST.insertLoop s.heap key s.root none (s.nextId + 1) = some (.slot none)) :
    BST.insert s key = (⟨hset s.heap s.nextId ⟨key, none, none, none⟩, some s.nextId,
      s.nextId + 1⟩, some s.nextId, none) := by
  rw [BST.insert, hl]

theorem insert_eq_slot_some (s : BST) (key : Int) (yi : Nat)
    (hl : BST.insertLoop s.heap key s.root none (s.nextId + 1) = some (.slot (some yi))) :
    BST.insert s key = (⟨insHeap s.heap key s.nextId yi, s.root, s.nextId + 1⟩,
      some s.nextId, some yi) := by
  have he : BST.insert s key =
      (if key < (hset s.heap s.nextId ⟨key, none, none, some yi⟩ yi).key
       then (⟨setLeft (hset s.heap s.nextId ⟨key, none, none, some yi⟩) yi (some s.nextId),
         s.root, s.nextId + 1⟩, some s.nextId, some yi)
       else (⟨setRight (hset s.heap s.nextId ⟨key, none, none, some yi⟩) yi (some s.nextId),
         s.root, s.nextId + 1⟩, some s.nextId, some yi)) := by
    rw [BST.insert, hl]
  rw [he]
  by_cases hlt : key < (hset s.heap s.nextId ⟨key, none, none, some yi⟩ yi).key
  · rw [if_pos hlt]
    have h2 : insHeap s.heap key s.nextId yi
        = setLeft (hset s.heap s.nextId ⟨key, none, none, some yi⟩) yi (some s.nextId) := by
      simp only [insHeap]
      rw [if_pos hlt]
    rw [h2]
  · rw [if_neg hlt]
    have h2 : insHeap s.heap key s.nextId yi
        = setRight (hset s.heap s.nextId ⟨key, none, none, some yi⟩) yi (some s.nextId) := by
      simp only [insHeap]
      rw [if_neg hlt]
    rw [h2]

theorem insertAlg_rootId (key : Int) (z : Nat) : ∀ {t : Tree}, t ≠ .leaf →
    (insertAlg key z t).rootId = t.rootId
| .leaf, hne => absurd rfl hne
| .node i k l r, _ => by
    rw [insertAlg]
    by_cases he : key = k
    · rw [if_pos he]
    · rw [if_neg he]
      by_cases hlt : key < k
      · rw [if_pos hlt]
        rfl
      · rw [if_neg hlt]
        rfl

theorem insertAlg_keys (key : Int) (z : Nat) : ∀ {t : Tree}, key ∉ t.keys →
    List.Perm (insertAlg key z t).keys (key :: t.keys)
| .leaf, _ => by simp [insertAlg, Tree.keys]
| .node i k l r, hk => by
    have hne : key ≠ k := fun he => hk (Tree.mem_keys_node.mpr (Or.inr (Or.inl he)))
    rw [insertAlg, if_neg hne]
    by_cases hlt : key < k
    · rw [if_pos hlt]
      have ih := insertAlg_keys key z
        (t := l) (fun hm => hk (Tree.mem_keys_node.mpr (Or.inl hm)))
      show List.Perm ((insertAlg key z l).keys ++ k :: r.keys) _
      exact (ih.append_right (k :: r.keys)).trans (List.Perm.refl _)
    · rw [if_neg hlt]
      have ih := insertAlg_keys key z
        (t := r) (fun hm => hk (Tree.mem_keys_node.mpr (Or.inr (Or.inr hm))))
      show List.Perm (l.keys ++ k :: (insertAlg key z r).keys) _
      have h1 : List.Perm (l.keys ++ k :: (insertAlg key z r).keys)
          (l.keys ++ k :: (key :: r.keys)) :=
        ((ih.cons k).append_left l.keys)
      have h2 : List.Perm (k :: key :: r.keys) (key :: k :: r.keys) := List.Perm.swap _ _ _
      have h3 : List.Perm (l.keys ++ k :: key :: r.keys) (l.keys ++ key :: k :: r.keys) :=
        h2.append_left l.keys
      have h4 : List.Perm (l.keys ++ key :: (k :: r.keys)) (key :: (l.keys ++ k :: r.keys)) :=
        List.perm_middle
      exact h1.trans (h3.trans h4)

theorem insertAlg_ids (key : Int) (z : Nat) : ∀ {t : Tree}, key ∉ t.keys →
    List.Perm (insertAlg key z t).ids (z :: t.ids)
| .leaf, _ => by simp [insertAlg, Tree.ids]
| .node i k l r, hk => by
    have hne : key ≠ k := fun he => hk (Tree.mem_keys_node.mpr (Or.inr (Or.inl he)))
    rw [insertAlg, if_neg hne]
    by_cases hlt : key < k
    · rw [if_pos hlt]
      have ih := insertAlg_ids key z
        (t := l) (fun hm => hk (Tree.mem_keys_node.mpr (Or.inl hm)))
      show List.Perm ((insertAlg key z l).ids ++ i :: r.ids) _
      exact ih.append_right (i :: r.ids)
    · rw [if_neg hlt]
      have ih := insertAlg_ids key z
        (t := r) (fun hm => hk (Tree.mem_keys_node.mpr (Or.inr (Or.inr hm))))
      show List.Perm (l.ids ++ i :: (insertAlg key z r).ids) _
      have h1 : List.Perm (l.ids ++ i :: (insertAlg key z r).ids)
          (l.ids ++ i :: (z :: r.ids)) :=
        ((ih.cons i).append_left l.ids)
      have h3 : List.Perm (l.ids ++ i :: z :: r.ids) (l.ids ++ z :: i :: r.ids) :=
        (List.Perm.swap _ _ _).append_left l.ids
      have h4 : List.Perm (l.ids ++ z :: (i :: r.ids)) (z :: (l.ids ++ i :: r.ids)) :=
        List.perm_middle
      exact h1.trans (h3.trans h4)

theorem insertAlg_ordered (key : Int) (z : Nat) : ∀ {t : Tree}, Ordered t → key ∉ t.keys →
    Ordered (insertAlg key z t)
| .leaf, _, _ => ⟨by simp [Tree.keys], by simp [Tree.keys], trivial, trivial⟩
| .node i k l r, ho, hk => by
    obtain ⟨hlk, hrk, hol, hor⟩ := ho
    have hne : key ≠ k := fun he => hk (Tree.mem_keys_node.mpr (Or.inr (Or.inl he)))
    rw [insertAlg, if_neg hne]
    by_cases hlt : key < k
    · rw [if_pos hlt]
      have hknl : key ∉ l.keys := fun hm => hk (Tree.mem_keys_node.mpr (Or.inl hm))
      refine ⟨?_, hrk, insertAlg_ordered key z hol hknl, hor⟩
      intro k' hk'
      rcases List.mem_cons.mp ((insertAlg_keys key z hknl).mem_iff.mp hk') with rfl | hm
      · exact hlt
      · exact hlk k' hm
    · rw [if_neg hlt]
      have hgt : k < key := lt_of_le_of_ne (not_lt.mp hlt) (fun hh => hne hh.symm)
      have hknr : key ∉ r.keys := fun hm => hk (Tree.mem_keys_node.mpr (Or.inr (Or.inr hm)))
      refine ⟨hlk, ?_, hol, insertAlg_ordered key z hor hknr⟩
      intro k' hk'
      rcases List.mem_cons.mp ((insertAlg_keys key z hknr).mem_iff.mp hk') with rfl | hm
      · exact hgt
      · exact hrk k' hm

/-! ### Insert: the linking lemma and the top-level theorems -/

theorem insert_link (key : Int) (z : Nat) : ∀ {t : Tree} (h : Heap) (y0 : Option Nat),
    IsRepr h t → Ordered t → key ∉ t.keys → t.ids.Nodup → z ∉ t.ids → t ≠ .leaf →
    ∃ yi, slotOf key t y0 = some yi ∧ yi ∈ t.ids ∧
      IsRepr (insHeap h key z yi) (insertAlg key z t) ∧
      (∀ p, ParentOk h p t → ParentOk (insHeap h key z yi) p (insertAlg key z t)) ∧
      (∀ j, j ∉ t.ids → j ≠ z → insHeap h key z yi j = h j) ∧
      (insertAlg key z t).rootId = t.rootId
| .leaf, _, _, _, _, _, _, _, hne => absurd rfl hne
| .node i k l r, h, y0, hrep, ho, hk, hnd, hz, _ => by
    obtain ⟨h1, h2, h3, h4, h5⟩ := hrep
    obtain ⟨hlk, hrk, hol, hor⟩ := ho
    obtain ⟨hil, hir, hndl, hndr, hdlr⟩ := nodup_node hnd
    have hne : key ≠ k := fun he => hk (Tree.mem_keys_node.mpr (Or.inr (Or.inl he)))
    have himem : i ∈ (Tree.node i k l r).ids := Tree.mem_ids_node.mpr (Or.inr (Or.inl rfl))
    have hzi : z ≠ i := fun he => hz (he ▸ himem)
    have hzl : z ∉ l.ids := fun hm => hz (Tree.mem_ids_node.mpr (Or.inl hm))
    have hzr : z ∉ r.ids := fun hm => hz (Tree.mem_ids_node.mpr (Or.inr (Or.inr hm)))
    rw [slotOf, insertAlg, if_neg hne]
    by_cases hlt : key < k
    · rw [if_pos hlt, if_pos hlt]
      have hknl : key ∉ l.keys := fun hm => hk (Tree.mem_keys_node.mpr (Or.inl hm))
      by_cases hleaf : l = Tree.leaf
      · subst hleaf
        refine ⟨i, rfl, himem, ?_, ?_, ?_, rfl⟩
        all_goals
          have hcond : key < (hset h z ⟨key, none, none, some i⟩ i).key := by
            rw [hset_ne _ _ _ hzi.symm, h1]
            exact hlt
          have hheq : insHeap h key z i
              = setLeft (hset h z ⟨key, none, none, some i⟩) i (some z) := by
            simp only [insHeap]
            rw [if_pos hcond]
          have hcellz : insHeap h key z i z = ⟨key, none, none, some i⟩ := by
            rw [hheq, setLeft_ne _ _ _ hzi, hset_same]
          have hcelli : insHeap h key z i i = { h i with left := some z } := by
            rw [hheq, setLeft_same, hset_ne _ _ _ hzi.symm]
          have hcello : ∀ j, j ≠ i → j ≠ z → insHeap h key z i j = h j := by
            intro j hji hjz
            rw [hheq, setLeft_ne _ _ _ hji, hset_ne _ _ _ hjz]
        · rw [insertAlg]
          refine ⟨by rw [hcelli]; exact h1, by rw [hcelli]; rfl, by rw [hcelli]; exact h3,
            ⟨by rw [hcellz], by rw [hcellz]; rfl, by rw [hcellz]; rfl, trivial, trivial⟩, ?_⟩
          refine isRepr_ext (fun j hj => ?_) h5
          rw [hcello j (ne_of_mem_of_not_mem hj hir) (ne_of_mem_of_not_mem hj hzr)]
          exact ⟨rfl, rfl, rfl⟩
        · intro p hpok
          obtain ⟨q1, q2, q3⟩ := hpok
          refine ⟨by rw [hcelli]; exact q1, ⟨by rw [hcellz], trivial, trivial⟩, ?_⟩
          refine parentOk_ext (fun j hj => ?_) q3
          rw [hcello j (ne_of_mem_of_not_mem hj hir) (ne_of_mem_of_not_mem hj hzr)]
        · intro j hjm hjz
          exact hcello j (fun he => hjm (he ▸ himem)) hjz
      · obtain ⟨yi, hy1, hy2, hy3, hy4, hy5, hy6⟩ :=
          insert_link key z h (some i) h4 hol hknl hndl hzl hleaf
        have hci : insHeap h key z yi i = h i := hy5 i hil (fun he => hzi he.symm)
        refine ⟨yi, hy1, Tree.mem_ids_node.mpr (Or.inl hy2), ?_, ?_, ?_, rfl⟩
        · refine ⟨by rw [hci]; exact h1, by rw [hci, h2, hy6], by rw [hci]; exact h3, hy3, ?_⟩
          refine isRepr_ext (fun j hj => ?_) h5
          rw [hy5 j (fun hm => hdlr j hm hj) (ne_of_mem_of_not_mem hj hzr)]
          exact ⟨rfl, rfl, rfl⟩
        · intro p hpok
          obtain ⟨q1, q2, q3⟩ := hpok
          refine ⟨by rw [hci]; exact q1, hy4 (some i) q2, ?_⟩
          refine parentOk_ext (fun j hj => ?_) q3
          rw [hy5 j (fun hm => hdlr j hm hj) (ne_of_mem_of_not_mem hj hzr)]
        · intro j hjm hjz
          exact hy5 j (fun hm => hjm (Tree.mem_ids_node.mpr (Or.inl hm))) hjz
    · rw [if_neg hlt, if_neg hlt]
      have hknr : key ∉ r.keys := fun hm => hk (Tree.mem_keys_node.mpr (Or.inr (Or.inr hm)))
      by_cases hleaf : r = Tree.leaf
      · subst hleaf
        refine ⟨i, rfl, himem, ?_, ?_, ?_, rfl⟩
        all_goals
          have hcond : ¬ key < (hset h z ⟨key, none, none, some i⟩ i).key := by
            rw [hset_ne _ _ _ hzi.symm, h1]
            exact hlt
          have hheq : insHeap h key z i
              = setRight (hset h z ⟨key, none, none, some i⟩) i (some z) := by
            simp only [insHeap]
            rw [if_neg hcond]
          have hcellz : insHeap h key z i z = ⟨key, none, none, some i⟩ := by
            rw [hheq, setRight_ne _ _ _ hzi, hset_same]
          have hcelli : insHeap h key z i i = { h i with right := some z } := by
            rw [hheq, setRight_same, hset_ne _ _ _ hzi.symm]
          have hcello : ∀ j, j ≠ i → j ≠ z → insHeap h key z i j = h j := by
            intro j hji hjz
            rw [hheq, setRight_ne _ _ _ hji, hset_ne _ _ _ hjz]
        · rw [insertAlg]
          refine ⟨by rw [hcelli]; exact h1, by rw [hcelli]; exact h2, by rw [hcelli]; rfl,
            ?_, ⟨by rw [hcellz], by rw [hcellz]; rfl, by rw [hcellz]; rfl, trivial, trivial⟩⟩
          refine isRepr_ext (fun j hj => ?_) h4
          rw [hcello j (ne_of_mem_of_not_mem hj hil) (ne_of_mem_of_not_mem hj hzl)]
          exact ⟨rfl, rfl, rfl⟩
        · intro p hpok
          obtain ⟨q1, q2, q3⟩ := hpok
          refine ⟨by rw [hcelli]; exact q1, ?_, ⟨by rw [hcellz], trivial, trivial⟩⟩
          refine parentOk_ext (fun j hj => ?_) q2
          rw [hcello j (ne_of_mem_of_not_mem hj hil) (ne_of_mem_of_not_mem hj hzl)]
        · intro j hjm hjz
          exact hcello j (fun he => hjm (he ▸ himem)) hjz
      · obtain ⟨yi, hy1, hy2, hy3, hy4, hy5, hy6⟩ :=
          insert_link key z h (some i) h5 hor hknr hndr hzr hleaf
        have hci : insHeap h key z yi i = h i :=
          hy5 i hir (fun he => hzi he.symm)
        refine ⟨yi, hy1, Tree.mem_ids_node.mpr (Or.inr (Or.inr hy2)), ?_, ?_, ?_, rfl⟩
        · refine ⟨by rw [hci]; exact h1, by rw [hci]; exact h2, by rw [hci, h3, hy6], ?_, hy3⟩
          refine isRepr_ext (fun j hj => ?_) h4
          rw [hy5 j (hdlr j hj) (ne_of_mem_of_not_mem hj hzl)]
          exact ⟨rfl, rfl, rfl⟩
        · intro p hpok
          obtain ⟨q1, q2, q3⟩ := hpok
          refine ⟨by rw [hci]; exact q1, ?_, hy4 (some i) q3⟩
          refine parentOk_ext (fun j hj => ?_) q2
          rw [hy5 j (hdlr j hj) (ne_of_mem_of_not_mem hj hzl)]
        · intro j hjm hjz
          exact hy5 j (fun hm => hjm (Tree.mem_ids_node.mpr (Or.inr (Or.inr hm)))) hjz

theorem insert_dup {s : BST} {t : Tree} (M : Models s t) {key : Int} (hk : key ∈ t.keys) :
    ∃ x, BST.insert s key = (s, none, some x) ∧ (s.heap x).key = key := by
  have hf : (searchA key t).2 ≠ none := fun h => (searchA_none key M.ord).mp h hk
  obtain ⟨x, hx⟩ := Option.ne_none_iff_exists'.mp hf
  have hloop : BST.insertLoop s.heap key s.root none (s.nextId + 1)
      = some (InsRes.dup x) := by
    rw [M.root_eq, insertLoop_spec key none M.repr_ok M.height_lt, loopSpec_dup key none hx]
  refine ⟨x, insert_eq_dup s key x hloop, ?_⟩
  obtain ⟨c, l, r, ht⟩ := searchA_some key hx
  have hrep := M.repr_ok
  rw [ht] at hrep
  exact ((isRepr_plug c _).mp hrep).2.1

theorem insert_new {s : BST} {t : Tree} (M : Models s t) {key : Int} (hk : key ∉ t.keys) :
    Models (BST.insert s key).1 (insertAlg key s.nextId t) ∧
    (BST.insert s key).2.1 = some s.nextId ∧
    (BST.insert s key).1.nextId = s.nextId + 1 := by
  have hz : s.nextId ∉ t.ids := fun hm => absurd (M.bound _ hm) (lt_irrefl _)
  by_cases hleaf : t = Tree.leaf
  · subst hleaf
    have hloop : BST.insertLoop s.heap key s.root none (s.nextId + 1)
        = some (InsRes.slot none) := by
      rw [M.root_eq, insertLoop_spec key none M.repr_ok M.height_lt]
      rfl
    rw [insert_eq_slot_root s key hloop]
    refine ⟨⟨rfl, ?_, ?_, ?_, ?_, ?_⟩, rfl, rfl⟩
    · exact ⟨by simp [hset_same, Tree.rootId], by simp [hset_same, Tree.rootId],
        by simp [hset_same, Tree.rootId], trivial, trivial⟩
    · exact ⟨by simp [hset_same], trivial, trivial⟩
    · show (List.nil ++ s.nextId :: List.nil).Nodup
      simp
    · exact ⟨by simp [Tree.keys], by simp [Tree.keys], trivial, trivial⟩
    · intro i hi
      have : i = s.nextId := by
        simpa [Tree.ids] using hi
      show i < s.nextId + 1
      omega
  · obtain ⟨yi, hy1, hy2, hy3, hy4, hy5, hy6⟩ :=
      insert_link key s.nextId s.heap none M.repr_ok M.ord hk M.nodup hz hleaf
    have hloop : BST.insertLoop s.heap key s.root none (s.nextId + 1)
        = some (InsRes.slot (some yi)) := by
      rw [M.root_eq, insertLoop_spec key none M.repr_ok M.height_lt,
        loopSpec_slot key t none hk, hy1]
    rw [insert_eq_slot_some s key yi hloop]
    refine ⟨⟨?_, hy3, hy4 none M.pok, ?_, insertAlg_ordered key s.nextId M.ord hk, ?_⟩,
      rfl, rfl⟩
    · show s.root = _
      rw [M.root_eq, hy6]
    · exact (insertAlg_ids key s.nextId hk).symm.nodup
        (List.nodup_cons.mpr ⟨hz, M.nodup⟩)
    · intro i hi
      show i < s.nextId + 1
      rcases List.mem_cons.mp ((insertAlg_ids key s.nextId hk).mem_iff.mp hi) with rfl | hm
      · omega
      · have := M.bound i hm
        omega

/-! ### Delete: unfolding equations and helpers -/

theorem delete_eq_match (s : BST) (key : Int) (z : Nat)
    (hs : (BST.search s key).2 = some z) :
    BST.delete s key =
      (match (s.heap z).left, (s.heap z).right with
       | none, _ => (BST.transplant s z (s.heap z).right, some z)
       | some _, none => (BST.transplant s z (s.heap z).left, some z)
       | some _, some zr =>
           match BST.minimum s.heap (some zr) (s.nextId + 1) with
           | .error _ => (s, none)
           | .ok y => (BST.deleteTwo s z y, some z)) := by
  rw [BST.delete, hs]

theorem delete_eq_absent (s : BST) (key : Int) (hs : (BST.search s key).2 = none) :
    BST.delete s key = (s, none) := by
  rw [BST.delete, hs]

theorem delete_eq_noleft (s : BST) (key : Int) (z : Nat) (vr : Option Nat)
    (hs : (BST.search s key).2 = some z) (hl : (s.heap z).left = none)
    (hr : (s.heap z).right = vr) :
    BST.delete s key = (BST.transplant s z vr, some z) := by
  rw [delete_eq_match s key z hs, hl, hr]

theorem delete_eq_noright (s : BST) (key : Int) (z zl : Nat)
    (hs : (BST.search s key).2 = some z) (hl : (s.heap z).left = some zl)
    (hr : (s.heap z).right = none) :
    BST.delete s key = (BST.transplant s z (some zl), some z) := by
  rw [delete_eq_match s key z hs, hl, hr]

theorem delete_eq_two (s : BST) (key : Int) (z zl zr y : Nat)
    (hs : (BST.search s key).2 = some z) (hl : (s.heap z).left = some zl)
    (hr : (s.heap z).right = some zr)
    (hm : BST.minimum s.heap (some zr) (s.nextId + 1) = .ok y) :
    BST.delete s key = (BST.deleteTwo s z y, some z) := by
  rw [delete_eq_match s key z hs, hl, hr]
  show (match BST.minimum s.heap (some zr) (s.nextId + 1) with
        | .error _ => (s, none)
        | .ok y => (BST.deleteTwo s z y, some z)) = _
  rw [hm]

theorem deleteTwo_eq_close (s s2 : BST) (z y li : Nat)
    (hp : (s.heap y).parent = some z)
    (hs2 : BST.transplant s z (some y) = s2)
    (hzl : (s2.heap z).left = some li) :
    BST.deleteTwo s z y =
      { s2 with heap := setParent (setLeft s2.heap y (some li)) li (some y) } := by
  have hnp : ¬ (s.heap y).parent ≠ some z := by
    rw [hp]
    exact fun hne => hne rfl
  simp only [BST.deleteTwo, if_neg hnp]
  rw [hs2, hzl]
  simp only [setLeft_same]

theorem deleteTwo_eq_detach (s sa s1 s2 : BST) (z y ri li : Nat)
    (hp : (s.heap y).parent ≠ some z)
    (hsa : BST.transplant s y (s.heap y).right = sa)
    (hzr : (sa.heap z).right = some ri)
    (hs1 : { sa with heap := setParent (setRight sa.heap y (some ri)) ri (some y) } = s1)
    (hs2 : BST.transplant s1 z (some y) = s2)
    (hzl : (s2.heap z).left = some li) :
    BST.deleteTwo s z y =
      { s2 with heap := setParent (setLeft s2.heap y (some li)) li (some y) } := by
  simp only [BST.deleteTwo, if_pos hp]
  rw [hsa, hzr]
  simp only [setRight_same]
  rw [hs1, hs2, hzl]
  simp only [setLeft_same]

theorem hp_ne_of_not_mem {c : Ctx} {z : Nat} (hz : z ∉ c.allIds) : c.hp none ≠ some z := by
  by_cases hct : c = Ctx.top
  · subst hct
    simp [Ctx.hp]
  · obtain ⟨j, hj1, hj2⟩ := Ctx.hp_mem c hct none
    rw [hj1]
    exact fun he => hz ((Option.some_injective _ he) ▸ hj2)

theorem Ctx.rootD_some : ∀ (c : Ctx), c ≠ .top → ∀ x : Option Nat, ∃ j, c.rootD x = some j
| .top, h => absurd rfl h
| .lf i k r c, _ => fun _ => by
    by_cases hct : c = Ctx.top
    · subst hct
      exact ⟨i, rfl⟩
    · exact Ctx.rootD_some c hct (some i)
| .rt i k l c, _ => fun _ => by
    by_cases hct : c = Ctx.top
    · subst hct
      exact ⟨i, rfl⟩
    · exact Ctx.rootD_some c hct (some i)

theorem allIds_subset_plug {c : Ctx} {t : Tree} : ∀ j ∈ c.allIds, j ∈ (c.plug t).ids := by
  intro j hj
  rw [Ctx.ids_plug]
  rcases List.mem_append.mp hj with h | h
  · exact List.mem_append.mpr (Or.inl (List.mem_append.mpr (Or.inl h)))
  · exact List.mem_append.mpr (Or.inr h)

theorem sub_subset_plug {c : Ctx} {t : Tree} : ∀ j ∈ t.ids, j ∈ (c.plug t).ids := by
  intro j hj
  rw [Ctx.ids_plug]
  exact List.mem_append.mpr (Or.inl (List.mem_append.mpr (Or.inr hj)))

/-- After a successful delete, the successor occupies the deleted node's
structural position: the old parent's corresponding child slot (or the
root) now points at `y`. -/
theorem occupies_helper (s0 sF : BST) (c : Ctx) (z y : Nat)
    (hC : IsReprC s0.heap c (some z))
    (hC' : IsReprC sF.heap c (some y))
    (hz : z ∉ c.allIds)
    (hroot : sF.root = c.rootD (some y)) :
    (match (c.hp none : Option Nat) with
     | none => sF.root = some y
     | some p => (if (s0.heap p).left = some z then (sF.heap p).left else (sF.heap p).right)
         = some y) := by
  cases c with
  | top => exact hroot
  | lf p kp rs c' =>
      show (if (s0.heap p).left = some z then (sF.heap p).left else (sF.heap p).right) = some y
      rw [if_pos hC.2.1]
      exact hC'.2.1
  | rt p kp ls c' =>
      show (if (s0.heap p).left = some z then (sF.heap p).left else (sF.heap p).right) = some y
      have hne : (s0.heap p).left ≠ some z := by
        rw [hC.2.2.1]
        exact fun he => hz (Ctx.mem_allIds_rt.mpr (Or.inr (Or.inl (Tree.rootId_mem he))))
      rw [if_neg hne]
      exact hC'.2.1

theorem delete_absent {s : BST} {t : Tree} (M : Models s t) {key : Int} (hk : key ∉ t.keys) :
    BST.delete s key = (s, none) := by
  apply delete_eq_absent
  rw [M.search_eq]
  exact (searchA_none key M.ord).mpr hk

/-- Common final wiring of the two-children delete: after the successor's
subtree `node y ky leaf R` has been transplanted into `z`'s position
(state `s2`), the left subtree `l` is attached under `y`. -/
theorem delete_two_finish (s0 s2 : BST) (c : Ctx) (z y zl : Nat) (ky : Int) (l R : Tree)
    (hzlv : l.rootId = some zl)
    (hIl : IsRepr s0.heap l)
    (hPl : ParentOk s0.heap (some z) l)
    (hklr : ∀ j ∈ l.ids, (s2.heap j).key = (s0.heap j).key ∧
      (s2.heap j).left = (s0.heap j).left ∧ (s2.heap j).right = (s0.heap j).right)
    (hparl : ∀ j ∈ l.ids, (s2.heap j).parent = (s0.heap j).parent)
    (hndl : l.ids.Nodup)
    (hynl : y ∉ l.ids)
    (hlnc : ∀ j ∈ l.ids, j ∉ c.allIds)
    (hlnR : ∀ j ∈ l.ids, j ∉ R.ids)
    (hync : y ∉ c.allIds)
    (hynR : y ∉ R.ids)
    (P3 : IsReprC s2.heap c (some y))
    (P4 : IsRepr s2.heap (Tree.node y ky Tree.leaf R))
    (P5 : ParentOkC s2.heap none c)
    (P6 : ParentOk s2.heap (c.hp none) (Tree.node y ky Tree.leaf R)) :
    IsReprC (setParent (setLeft s2.heap y (some zl)) zl (some y)) c (some y) ∧
    IsRepr (setParent (setLeft s2.heap y (some zl)) zl (some y)) (Tree.node y ky l R) ∧
    ParentOkC (setParent (setLeft s2.heap y (some zl)) zl (some y)) none c ∧
    ParentOk (setParent (setLeft s2.heap y (some zl)) zl (some y)) (c.hp none)
      (Tree.node y ky l R) := by
  obtain ⟨kl, la, lb, rfl⟩ := Tree.rootId_node hzlv
  obtain ⟨hzlla, hzllb, hndla, hndlb, hdlab⟩ := nodup_node hndl
  have hzlmem : zl ∈ (Tree.node zl kl la lb).ids := Tree.mem_ids_node.mpr (Or.inr (Or.inl rfl))
  have hzly : zl ≠ y := ne_of_mem_of_not_mem hzlmem hynl
  have hFy : setParent (setLeft s2.heap y (some zl)) zl (some y) y
      = { s2.heap y with left := some zl } := by
    rw [setParent_ne _ _ _ hzly.symm, setLeft_same]
  have hFzl : setParent (setLeft s2.heap y (some zl)) zl (some y) zl
      = { s2.heap zl with parent := some y } := by
    rw [setParent_same, setLeft_ne _ _ _ hzly]
  have hFo : ∀ j, j ≠ y → j ≠ zl →
      setParent (setLeft s2.heap y (some zl)) zl (some y) j = s2.heap j := by
    intro j hjy hjzl
    rw [setParent_ne _ _ _ hjzl, setLeft_ne _ _ _ hjy]
  have hFklr : ∀ j, j ≠ y →
      ((setParent (setLeft s2.heap y (some zl)) zl (some y) j).key = (s2.heap j).key ∧
       (setParent (setLeft s2.heap y (some zl)) zl (some y) j).left = (s2.heap j).left ∧
       (setParent (setLeft s2.heap y (some zl)) zl (some y) j).right = (s2.heap j).right) := by
    intro j hjy
    by_cases hjzl : j = zl
    · subst hjzl
      rw [hFzl]
      exact ⟨rfl, rfl, rfl⟩
    · rw [hFo j hjy hjzl]
      exact ⟨rfl, rfl, rfl⟩
  have hFpar : ∀ j, j ≠ zl →
      (setParent (setLeft s2.heap y (some zl)) zl (some y) j).parent
        = (s2.heap j).parent := by
    intro j hjzl
    by_cases hjy : j = y
    · subst hjy
      rw [hFy]
    · rw [hFo j hjy hjzl]
  obtain ⟨p41, p42, p43, _, p45⟩ := P4
  obtain ⟨p61, _, p63⟩ := P6
  obtain ⟨q1, q2, q3⟩ := hPl
  refine ⟨?_, ?_, ?_, ?_⟩
  · exact isReprC_ext (fun j hj => hFklr j (ne_of_mem_of_not_mem hj hync)) P3
  · refine ⟨by rw [hFy]; exact p41, by rw [hFy]; exact hzlv.symm, by rw [hFy]; exact p43,
      ?_, ?_⟩
    · refine isRepr_ext (fun j hj => ?_) hIl
      have h1 := hFklr j (ne_of_mem_of_not_mem hj hynl)
      have h2 := hklr j hj
      exact ⟨h1.1.trans h2.1, h1.2.1.trans h2.2.1, h1.2.2.trans h2.2.2⟩
    · refine isRepr_ext (fun j hj => hFklr j (ne_of_mem_of_not_mem hj hynR)) p45
  · exact parentOkC_ext
      (fun j hj => hFpar j (ne_of_mem_of_not_mem hj (hlnc zl hzlmem))) P5
  · refine ⟨by rw [hFy]; exact p61, ?_, ?_⟩
    · refine ⟨by rw [hFzl], ?_, ?_⟩
      · refine parentOk_ext (fun j hj => ?_) q2
        have h1 := hFpar j (ne_of_mem_of_not_mem hj hzlla)
        have h2 := hparl j (Tree.mem_ids_node.mpr (Or.inl hj))
        exact h1.trans h2
      · refine parentOk_ext (fun j hj => ?_) q3
        have h1 := hFpar j (ne_of_mem_of_not_mem hj hzllb)
        have h2 := hparl j (Tree.mem_ids_node.mpr (Or.inr (Or.inr hj)))
        exact h1.trans h2
    · exact parentOk_ext
        (fun j hj => hFpar j (ne_of_mem_of_not_mem hj (hlnR zl hzlmem))) p63

set_option maxHeartbeats 1000000 in
/-- Deleting a key that is present removes exactly that key, preserves the
invariant, and (in the two-children case) moves the successor into the
deleted node's position. -/
theorem delete_present {s : BST} {t : Tree} (M : Models s t) {key : Int} (hk : key ∈ t.keys) :
    ∃ z s', BST.delete s key = (s', some z) ∧ (s.heap z).key = key ∧ s'.nextId = s.nextId ∧
      (∃ t', Models s' t' ∧ t'.keys = t.keys.erase key) ∧
      (∀ zl zr, (s.heap z).left = some zl → (s.heap z).right = some zr →
        ∃ y, BST.minimum s.heap (some zr) (s.nextId + 1) = .ok y ∧
          (match (s.heap z).parent with
           | none => s'.root = some y
           | some p => (if (s.heap p).left = some z then (s'.heap p).left
               else (s'.heap p).right) = some y)) := by
  have hf : (searchA key t).2 ≠ none := fun h => (searchA_none key M.ord).mp h hk
  obtain ⟨z, hz⟩ := Option.ne_none_iff_exists'.mp hf
  have hsearch : (BST.search s key).2 = some z := by
    rw [M.search_eq]
    exact hz
  obtain ⟨c, l, r, ht⟩ := searchA_some key hz
  subst ht
  obtain ⟨hC, hN⟩ := (isRepr_plug c _).mp M.repr_ok
  obtain ⟨hzkey, hzl, hzr, hIl, hIr⟩ := hN
  obtain ⟨hPC, hPN⟩ := (parentOk_plug c none _).mp M.pok
  obtain ⟨hzpar, hPl, hPr⟩ := hPN
  obtain ⟨hndN, hndC, hdisjNC⟩ := nodup_plug M.nodup
  obtain ⟨hznl, hznr, hndl, hndr, hdlr⟩ := nodup_node hndN
  have hzmem : z ∈ (Tree.node z key l r).ids := Tree.mem_ids_node.mpr (Or.inr (Or.inl rfl))
  have hzNC : z ∉ c.allIds := hdisjNC z hzmem
  have hroot : s.root = c.rootD (some z) := by
    rw [M.root_eq, Ctx.rootId_plug]
    rfl
  have hkt : (Ctx.plug c (Tree.node z key l r)).keys
      = (c.keysL ++ l.keys) ++ key :: (r.keys ++ c.keysR) := by
    rw [Ctx.keys_plug]
    simp [Tree.keys, List.append_assoc]
  have hsorted := M.ord.sorted
  have hklt : ∀ x ∈ c.keysL ++ l.keys, x < key := by
    rw [hkt] at hsorted
    obtain ⟨_, _, h3⟩ := List.pairwise_append.mp hsorted
    exact fun x hx => h3 x hx key (List.mem_cons_self _ _)
  have hknotmem : key ∉ c.keysL ++ l.keys := fun hm => lt_irrefl key (hklt key hm)
  have herase : (Ctx.plug c (Tree.node z key l r)).keys.erase key
      = (c.keysL ++ l.keys) ++ (r.keys ++ c.keysR) := by
    rw [hkt, List.erase_append_right _ hknotmem, List.erase_cons_head]
  by_cases hlleaf : l = Tree.leaf
  · -- case 1: no left child
    subst hlleaf
    have hzl' : (s.heap z).left = none := hzl
    have hT8 : ∀ j ∈ r.ids, j ∉ c.allIds ∧ j ≠ z := fun j hj =>
      ⟨hdisjNC j (Tree.mem_ids_node.mpr (Or.inr (Or.inr hj))),
       ne_of_mem_of_not_mem hj hznr⟩
    obtain ⟨R1, R2, R3, R4, R5, R6, R7, R8, R9⟩ :=
      transplant_spec s c z r hroot hC hzpar hndC hzNC hIr hndr hT8 hPC
        (pokInner_of_parentOk hPr)
    refine ⟨z, BST.transplant s z r.rootId, delete_eq_noleft s key z r.rootId hsearch hzl' hzr,
      hzkey, R2, ⟨Ctx.plug c r, ?_, ?_⟩, ?_⟩
    · refine ⟨?_, (isRepr_plug c r).mpr ⟨R3, R4⟩, (parentOk_plug c none r).mpr ⟨R5, R6⟩,
        ?_, ?_, ?_⟩
      · rw [R1, Ctx.rootId_plug]
      · -- nodup
        have hsub : List.Sublist (Ctx.plug c r).ids
            (Ctx.plug c (Tree.node z key Tree.leaf r)).ids := by
          rw [Ctx.ids_plug, Ctx.ids_plug]
          refine List.Sublist.append (List.Sublist.append (List.Sublist.refl _) ?_)
            (List.Sublist.refl _)
          show List.Sublist r.ids (Tree.node z key Tree.leaf r).ids
          simp only [Tree.ids, List.nil_append]
          exact List.sublist_cons_self z r.ids
        exact M.nodup.sublist hsub
      · -- ordered
        have hsub : List.Sublist (Ctx.plug c r).keys
            (Ctx.plug c (Tree.node z key Tree.leaf r)).keys := by
          rw [Ctx.keys_plug, Ctx.keys_plug]
          refine List.Sublist.append (List.Sublist.append (List.Sublist.refl _) ?_)
            (List.Sublist.refl _)
          show List.Sublist r.keys (Tree.node z key Tree.leaf r).keys
          simp only [Tree.keys, List.nil_append]
          exact List.sublist_cons_self key r.keys
        exact (ordered_iff_sorted _).mpr (hsorted.sublist hsub)
      · intro i hi
        have hsub : List.Sublist (Ctx.plug c r).ids
            (Ctx.plug c (Tree.node z key Tree.leaf r)).ids := by
          rw [Ctx.ids_plug, Ctx.ids_plug]
          refine List.Sublist.append (List.Sublist.append (List.Sublist.refl _) ?_)
            (List.Sublist.refl _)
          show List.Sublist r.ids (Tree.node z key Tree.leaf r).ids
          simp only [Tree.ids, List.nil_append]
          exact List.sublist_cons_self z r.ids
        have := M.bound i (hsub.subset hi)
        rw [R2]
        exact this
    · -- keys of new tree = erase
      rw [herase, Ctx.keys_plug]
      simp [Tree.keys]
    · -- successor clause vacuous
      intro zl zr h1 h2
      rw [hzl'] at h1
      cases h1
  · by_cases hrleaf : r = Tree.leaf
    · -- case 2: left child present, no right child
      subst hrleaf
      obtain ⟨zl, hlroot⟩ : ∃ zl, l.rootId = some zl := by
        cases l with
        | leaf => exact absurd rfl hlleaf
        | node i k a b => exact ⟨i, rfl⟩
      have hzl' : (s.heap z).left = some zl := by rw [hzl, hlroot]
      have hzr' : (s.heap z).right = none := hzr
      have hdel := delete_eq_noright s key z zl hsearch hzl' hzr'
      rw [← hlroot] at hdel
      have hT8 : ∀ j ∈ l.ids, j ∉ c.allIds ∧ j ≠ z := fun j hj =>
        ⟨hdisjNC j (Tree.mem_ids_node.mpr (Or.inl hj)),
         ne_of_mem_of_not_mem hj hznl⟩
      obtain ⟨R1, R2, R3, R4, R5, R6, R7, R8, R9⟩ :=
        transplant_spec s c z l hroot hC hzpar hndC hzNC hIl hndl hT8 hPC
          (pokInner_of_parentOk hPl)
      refine ⟨z, BST.transplant s z l.rootId, hdel, hzkey, R2, ⟨Ctx.plug c l, ?_, ?_⟩, ?_⟩
      · refine ⟨?_, (isRepr_plug c l).mpr ⟨R3, R4⟩, (parentOk_plug c none l).mpr ⟨R5, R6⟩,
          ?_, ?_, ?_⟩
        · rw [R1, Ctx.rootId_plug]
        · have hsub : List.Sublist (Ctx.plug c l).ids
              (Ctx.plug c (Tree.node z key l Tree.leaf)).ids := by
            rw [Ctx.ids_plug, Ctx.ids_plug]
            refine List.Sublist.append (List.Sublist.append (List.Sublist.refl _) ?_)
              (List.Sublist.refl _)
            show List.Sublist l.ids (Tree.node z key l Tree.leaf).ids
            simp only [Tree.ids]
            exact List.sublist_append_left l.ids _
          exact M.nodup.sublist hsub
        · have hsub : List.Sublist (Ctx.plug c l).keys
              (Ctx.plug c (Tree.node z key l Tree.leaf)).keys := by
            rw [Ctx.keys_plug, Ctx.keys_plug]
            refine List.Sublist.append (List.Sublist.append (List.Sublist.refl _) ?_)
              (List.Sublist.refl _)
            show List.Sublist l.keys (Tree.node z key l Tree.leaf).keys
            simp only [Tree.keys]
            exact List.sublist_append_left l.keys _
          exact (ordered_iff_sorted _).mpr (hsorted.sublist hsub)
        · intro i hi
          have hsub : List.Sublist (Ctx.plug c l).ids
              (Ctx.plug c (Tree.node z key l Tree.leaf)).ids := by
            rw [Ctx.ids_plug, Ctx.ids_plug]
            refine List.Sublist.append (List.Sublist.append (List.Sublist.refl _) ?_)
              (List.Sublist.refl _)
            show List.Sublist l.ids (Tree.node z key l Tree.leaf).ids
            simp only [Tree.ids]
            exact List.sublist_append_left l.ids _
          have := M.bound i (hsub.subset hi)
          rw [R2]
          exact this
      · rw [herase, Ctx.keys_plug]
        simp [Tree.keys]
      · intro zl' zr' h1 h2
        rw [hzr'] at h2
        cases h2
    · -- case 3: two children
      obtain ⟨zl, hlroot⟩ : ∃ zl, l.rootId = some zl := by
        cases l with
        | leaf => exact absurd rfl hlleaf
        | node i k a b => exact ⟨i, rfl⟩
      obtain ⟨zr, hrroot⟩ : ∃ zr, r.rootId = some zr := by
        cases r with
        | leaf => exact absurd rfl hrleaf
        | node i k a b => exact ⟨i, rfl⟩
      have hzl' : (s.heap z).left = some zl := by rw [hzl, hlroot]
      have hzr' : (s.heap z).right = some zr := by rw [hzr, hrroot]
      obtain ⟨q, hsp⟩ : ∃ q, splitMin r = some q := by
        cases hq : splitMin r with
        | none => exact absurd (splitMin_eq_none.mp hq) hrleaf
        | some q => exact ⟨q, rfl⟩
      obtain ⟨cm, y, ky, ry⟩ := q
      have hrdec := splitMin_plug hsp
      have hnil := splitMin_nil hsp
      have hrheight : r.height < s.nextId + 1 := by
        have h1 := height_plug_ge c (Tree.node z key l r)
        have h2 := M.height_lt
        have h3 : r.height ≤ (Tree.node z key l r).height := by
          simp only [Tree.height]
          have := Nat.le_max_right l.height r.height
          omega
        omega
      have hmin : BST.minimum s.heap (some zr) (s.nextId + 1) = .ok y := by
        have hm := minimum_spec hIr hrheight hsp
        rw [hrroot] at hm
        exact hm
      have hdel := delete_eq_two s key z zl zr y hsearch hzl' hzr' hmin
      have hndr2 : (Ctx.plug cm (Tree.node y ky Tree.leaf ry)).ids.Nodup := by
        rw [← hrdec]; exact hndr
      obtain ⟨hndY, hndCm, hdisjYcm⟩ := nodup_plug hndr2
      obtain ⟨hynleaf, hynry, hndleaf, hndry, hdYlr⟩ := nodup_node hndY
      have hymem : y ∈ (Tree.node y ky Tree.leaf ry).ids :=
        Tree.mem_ids_node.mpr (Or.inr (Or.inl rfl))
      have hyinr : y ∈ r.ids := by rw [hrdec]; exact sub_subset_plug y hymem
      have hIr2 : IsRepr s.heap (Ctx.plug cm (Tree.node y ky Tree.leaf ry)) := by
        rw [← hrdec]; exact hIr
      obtain ⟨hCm, hNy⟩ := (isRepr_plug cm _).mp hIr2
      obtain ⟨hykey, hyleft, hyright, hIleaf, hIry⟩ := hNy
      have hPr2 : ParentOk s.heap (some z) (Ctx.plug cm (Tree.node y ky Tree.leaf ry)) := by
        rw [← hrdec]; exact hPr
      obtain ⟨hPCm, hPNy⟩ := (parentOk_plug cm (some z) _).mp hPr2
      obtain ⟨hypar, hPleaf, hPry⟩ := hPNy
      have hynl : y ∉ l.ids := fun hm => hdlr y hm hyinr
      have hlnc : ∀ j ∈ l.ids, j ∉ c.allIds := fun j hj =>
        hdisjNC j (Tree.mem_ids_node.mpr (Or.inl hj))
      have hync : y ∉ c.allIds := hdisjNC y (Tree.mem_ids_node.mpr (Or.inr (Or.inr hyinr)))
      by_cases hcm : cm = Ctx.top
      · -- sub-case 3a: successor is the right child of z
        subst hcm
        simp only [Ctx.plug] at hrdec
        subst hrdec
        have hzry : y = zr := by simpa [Tree.rootId] using hrroot
        subst hzry
        simp only [Ctx.hp] at hypar
        have hT8 : ∀ j ∈ (Tree.node y ky Tree.leaf ry).ids, j ∉ c.allIds ∧ j ≠ z :=
          fun j hj => ⟨hdisjNC j (Tree.mem_ids_node.mpr (Or.inr (Or.inr hj))),
            ne_of_mem_of_not_mem hj hznr⟩
        obtain ⟨R1, R2, R3, R4, R5, R6, R7, R8, R9⟩ :=
          transplant_spec s c z (Tree.node y ky Tree.leaf ry) hroot hC hzpar hndC hzNC hIr
            hndr hT8 hPC (pokInner_of_parentOk hPr)
        have hzl2 : ((BST.transplant s z (some y)).heap z).left = some zl := by
          have h9 := (R9 z (hp_ne_of_not_mem hzNC)).1
          exact h9.trans hzl'
        have hdt := deleteTwo_eq_close s (BST.transplant s z (some y)) z y zl hypar rfl hzl2
        rw [hdt] at hdel
        have hF := delete_two_finish s (BST.transplant s z (some y)) c z y zl ky l ry
          hlroot hIl hPl
          (fun j hj => ⟨R7 j, (R9 j (hp_ne_of_not_mem (hlnc j hj))).1,
            (R9 j (hp_ne_of_not_mem (hlnc j hj))).2⟩)
          (fun j hj => R8 j (by
            show some y ≠ some j
            intro he
            rw [Option.some_inj] at he
            rw [he] at hynl
            exact hynl hj))
          hndl hynl hlnc
          (fun j hj hm => hdlr j hj (Tree.mem_ids_node.mpr (Or.inr (Or.inr hm))))
          hync hynry R3 R4 R5 R6
        obtain ⟨F1, F2, F3, F4⟩ := hF
        refine ⟨z, _, hdel, hzkey, R2, ⟨Ctx.plug c (Tree.node y ky l ry), ?_, ?_⟩, ?_⟩
        · refine ⟨?_, (isRepr_plug c _).mpr ⟨F1, F2⟩, (parentOk_plug c none _).mpr ⟨F3, F4⟩,
            ?_, ?_, ?_⟩
          · rw [Ctx.rootId_plug]
            exact R1
          · have hsub : List.Sublist (Ctx.plug c (Tree.node y ky l ry)).ids
                (Ctx.plug c (Tree.node z key l (Tree.node y ky Tree.leaf ry))).ids := by
              rw [Ctx.ids_plug, Ctx.ids_plug]
              refine List.Sublist.append (List.Sublist.append (List.Sublist.refl _) ?_)
                (List.Sublist.refl _)
              show List.Sublist (Tree.node y ky l ry).ids
                (Tree.node z key l (Tree.node y ky Tree.leaf ry)).ids
              simp only [Tree.ids, List.nil_append]
              exact List.Sublist.append (List.Sublist.refl _)
                (List.sublist_cons_self z (y :: ry.ids))
            exact M.nodup.sublist hsub
          · have hsub : List.Sublist (Ctx.plug c (Tree.node y ky l ry)).keys
                (Ctx.plug c (Tree.node z key l (Tree.node y ky Tree.leaf ry))).keys := by
              rw [Ctx.keys_plug, Ctx.keys_plug]
              refine List.Sublist.append (List.Sublist.append (List.Sublist.refl _) ?_)
                (List.Sublist.refl _)
              show List.Sublist (Tree.node y ky l ry).keys
                (Tree.node z key l (Tree.node y ky Tree.leaf ry)).keys
              simp only [Tree.keys, List.nil_append]
              exact List.Sublist.append (List.Sublist.refl _)
                (List.sublist_cons_self key (ky :: ry.keys))
            exact (ordered_iff_sorted _).mpr (hsorted.sublist hsub)
          · intro i hi
            have hsub : List.Sublist (Ctx.plug c (Tree.node y ky l ry)).ids
                (Ctx.plug c (Tree.node z key l (Tree.node y ky Tree.leaf ry))).ids := by
              rw [Ctx.ids_plug, Ctx.ids_plug]
              refine List.Sublist.append (List.Sublist.append (List.Sublist.refl _) ?_)
                (List.Sublist.refl _)
              show List.Sublist (Tree.node y ky l ry).ids
                (Tree.node z key l (Tree.node y ky Tree.leaf ry)).ids
              simp only [Tree.ids, List.nil_append]
              exact List.Sublist.append (List.Sublist.refl _)
                (List.sublist_cons_self z (y :: ry.ids))
            have := M.bound i (hsub.subset hi)
            have hR2 : (BST.transplant s z (some y)).nextId = s.nextId := R2
            show i < (BST.transplant s z (some y)).nextId
            rw [hR2]
            exact this
        · rw [herase, Ctx.keys_plug]
          simp [Tree.keys]
        · intro zl0 zr0 h1 h2
          rw [hzr'] at h2
          have hzz : y = zr0 := Option.some_inj.mp h2
          subst hzz
          refine ⟨y, hmin, ?_⟩
          rw [hzpar]
          exact occupies_helper s _ c z y hC F1 hzNC
            (by show (BST.transplant s z (some y)).root = c.rootD (some y); exact R1)
      · -- sub-case 3b: successor is strictly inside the right subtree
        subst hrdec
        obtain ⟨py, hpy1, hpy2⟩ := Ctx.hp_mem cm hcm (some z)
        have hpyr : py ∈ (Ctx.plug cm (Tree.node y ky Tree.leaf ry)).ids :=
          allIds_subset_plug py hpy2
        have hpynz : py ≠ z := ne_of_mem_of_not_mem hpyr hznr
        have hpyNC : py ∉ c.allIds :=
          hdisjNC py (Tree.mem_ids_node.mpr (Or.inr (Or.inr hpyr)))
        have hyncm : y ∉ cm.allIds := hdisjYcm y hymem
        have hpyny : py ≠ y := ne_of_mem_of_not_mem hpy2 hyncm
        have hp : (s.heap y).parent ≠ some z := by
          rw [hypar, hpy1]
          intro he
          exact hpynz (Option.some_inj.mp he)
        have hzrD : cm.rootD (some y) = some zr := by
          have hcopy := hrroot
          rw [Ctx.rootId_plug] at hcopy
          exact hcopy
        have hzrmem : zr ∈ cm.allIds := Ctx.rootD_mem_ne_top cm hcm hzrD
        have hzrny : zr ≠ y := ne_of_mem_of_not_mem hzrmem hyncm
        have hzrr : zr ∈ (Ctx.plug cm (Tree.node y ky Tree.leaf ry)).ids :=
          allIds_subset_plug zr hzrmem
        have hzrnz : zr ≠ z := ne_of_mem_of_not_mem hzrr hznr
        have hzrNC : zr ∉ c.allIds :=
          hdisjNC zr (Tree.mem_ids_node.mpr (Or.inr (Or.inr hzrr)))
        have hryinr : ∀ j ∈ ry.ids, j ∈ (Ctx.plug cm (Tree.node y ky Tree.leaf ry)).ids :=
          fun j hj => sub_subset_plug j (Tree.mem_ids_node.mpr (Or.inr (Or.inr hj)))
        have hryne : ∀ jj, jj ∉ ry.ids → ry.rootId ≠ some jj :=
          fun jj hnm he => hnm (Tree.rootId_mem he)
        have hcmry : ∀ j ∈ cm.allIds, j ∉ ry.ids :=
          fun j hj hm => hdisjYcm j (Tree.mem_ids_node.mpr (Or.inr (Or.inr hm))) hj
        have hznry : z ∉ ry.ids := fun hm => hznr (hryinr z hm)
        have htC1 : Ctx.plug ((Ctx.rt z key l c).comp cm) (Tree.node y ky Tree.leaf ry)
            = Ctx.plug c (Tree.node z key l (Ctx.plug cm (Tree.node y ky Tree.leaf ry))) := by
          rw [Ctx.plug_comp]
          rfl
        have hndT : (Ctx.plug ((Ctx.rt z key l c).comp cm)
            (Tree.node y ky Tree.leaf ry)).ids.Nodup := by
          rw [htC1]
          exact M.nodup
        obtain ⟨hndY2, hndC1, hdisjYC1⟩ := nodup_plug hndT
        have hynC1 : y ∉ ((Ctx.rt z key l c).comp cm).allIds := hdisjYC1 y hymem
        have hC1hp : ((Ctx.rt z key l c).comp cm).hp none = some py := by
          rw [Ctx.hp_comp]
          exact hpy1
        have TA1 : s.root = ((Ctx.rt z key l c).comp cm).rootD (some y) := by
          rw [hroot, Ctx.rootD_comp]
          rfl
        have TA2 : IsReprC s.heap ((Ctx.rt z key l c).comp cm) (some y) := by
          refine (isReprC_comp (Ctx.rt z key l c) cm (some y)).mpr ⟨hCm, ?_⟩
          refine ⟨hzkey, ?_, hzl, hIl, hC⟩
          rw [hzr, Ctx.rootId_plug]
          rfl
        have TA3 : (s.heap y).parent = ((Ctx.rt z key l c).comp cm).hp none := by
          rw [hypar, Ctx.hp_comp]
          rfl
        have TA8 : ∀ j ∈ ry.ids, j ∉ ((Ctx.rt z key l c).comp cm).allIds ∧ j ≠ y :=
          fun j hj => ⟨hdisjYC1 j (Tree.mem_ids_node.mpr (Or.inr (Or.inr hj))),
            ne_of_mem_of_not_mem hj hynry⟩
        have TA9 : ParentOkC s.heap none ((Ctx.rt z key l c).comp cm) :=
          (parentOkC_comp (Ctx.rt z key l c) cm none).mpr ⟨⟨hzpar, hPl, hPC⟩, hPCm⟩
        obtain ⟨Q1, Q2, Q3, Q4, Q5, Q6, Q7, Q8, Q9⟩ :=
          transplant_spec s ((Ctx.rt z key l c).comp cm) y ry TA1 TA2 TA3 hndC1 hynC1
            hIry hndry TA8 TA9 (pokInner_of_parentOk hPry)
        obtain ⟨sa, hsaeq⟩ : ∃ sa, BST.transplant s y ry.rootId = sa := ⟨_, rfl⟩
        rw [hsaeq] at Q1 Q2 Q3 Q4 Q5 Q6 Q7 Q8 Q9
        have hzr_sa : (sa.heap z).right = some zr := by
          have h9 := (Q9 z (by rw [hC1hp]; intro he; exact hpynz (Option.some_inj.mp he))).2
          rw [h9, hzr']
        obtain ⟨s1, hs1eq⟩ : ∃ s1,
            ({ sa with heap := setParent (setRight sa.heap y (some zr)) zr (some y) } : BST)
              = s1 := ⟨_, rfl⟩
        have hs1heap : s1.heap = setParent (setRight sa.heap y (some zr)) zr (some y) := by
          rw [← hs1eq]
        have hs1root : s1.root = sa.root := by rw [← hs1eq]
        have hs1next : s1.nextId = sa.nextId := by rw [← hs1eq]
        have hs1y : s1.heap y = { sa.heap y with right := some zr } := by
          rw [hs1heap, setParent_ne _ _ _ hzrny.symm, setRight_same]
        have hs1zr : s1.heap zr = { sa.heap zr with parent := some y } := by
          rw [hs1heap, setParent_same, setRight_ne _ _ _ hzrny]
        have hs1o : ∀ j, j ≠ y → j ≠ zr → s1.heap j = sa.heap j := by
          intro j hjy hjzr
          rw [hs1heap, setParent_ne _ _ _ hjzr, setRight_ne _ _ _ hjy]
        have hklr1 : ∀ j, j ≠ y → (s1.heap j).key = (sa.heap j).key ∧
            (s1.heap j).left = (sa.heap j).left ∧ (s1.heap j).right = (sa.heap j).right := by
          intro j hjy
          by_cases hjzr : j = zr
          · subst hjzr
            rw [hs1zr]
            exact ⟨rfl, rfl, rfl⟩
          · rw [hs1o j hjy hjzr]
            exact ⟨rfl, rfl, rfl⟩
        have hpar1 : ∀ j, j ≠ zr → (s1.heap j).parent = (sa.heap j).parent := by
          intro j hjzr
          by_cases hjy : j = y
          · subst hjy
            rw [hs1y]
          · rw [hs1o j hjy hjzr]
        have hklr01 : ∀ j, j ≠ y → j ≠ py → (s1.heap j).key = (s.heap j).key ∧
            (s1.heap j).left = (s.heap j).left ∧ (s1.heap j).right = (s.heap j).right := by
          intro j hjy hjpy
          have h1 := hklr1 j hjy
          have h9 := Q9 j (by rw [hC1hp]; intro he; exact hjpy (Option.some_inj.mp he).symm)
          exact ⟨h1.1.trans (Q7 j), h1.2.1.trans h9.1, h1.2.2.trans h9.2⟩
        have hpar01 : ∀ j, j ≠ zr → ry.rootId ≠ some j →
            (s1.heap j).parent = (s.heap j).parent := by
          intro j hjzr hjry
          exact (hpar1 j hjzr).trans (Q8 j hjry)
        have hr1root : (Ctx.plug cm ry).rootId = some zr := by
          rw [Ctx.rootId_plug, Ctx.rootD_const cm hcm ry.rootId (some y)]
          exact hzrD
        have hs1ykey : (s1.heap y).key = (sa.heap y).key := by rw [hs1y]
        have hs1yleft : (s1.heap y).left = (sa.heap y).left := by rw [hs1y]
        have hs1yright : (s1.heap y).right = some zr := by rw [hs1y]
        have hQ9y := Q9 y (by rw [hC1hp]; intro he; exact hpyny (Option.some_inj.mp he))
        have TB1 : s1.root = c.rootD (some z) := by
          rw [hs1root, Q1, Ctx.rootD_comp]
          rfl
        have TB2 : IsReprC s1.heap c (some z) := by
          refine isReprC_ext (fun j hj => ?_) hC
          exact hklr01 j (ne_of_mem_of_not_mem hj hync) (fun he => hpyNC (he ▸ hj))
        have TB3 : (s1.heap z).parent = c.hp none := by
          rw [hpar01 z hzrnz.symm (hryne z hznry)]
          exact hzpar
        have TB6 : IsRepr s1.heap (Tree.node y ky Tree.leaf (Ctx.plug cm ry)) := by
          refine ⟨?_, ?_, ?_, trivial, ?_⟩
          · rw [hs1ykey, Q7 y]
            exact hykey
          · rw [hs1yleft, hQ9y.1]
            exact hyleft
          · rw [hs1yright, hr1root]
          · refine (isRepr_plug cm ry).mpr ⟨?_, ?_⟩
            · have hQ3a := ((isReprC_comp (Ctx.rt z key l c) cm ry.rootId).mp Q3).1
              refine isReprC_ext (fun j hj => ?_) hQ3a
              exact hklr1 j (ne_of_mem_of_not_mem hj hyncm)
            · refine isRepr_ext (fun j hj => ?_) Q4
              exact hklr1 j (ne_of_mem_of_not_mem hj hynry)
        have hids2 : (Tree.node y ky Tree.leaf (Ctx.plug cm ry)).ids
            = (Ctx.plug cm (Tree.node y ky Tree.leaf ry)).ids := by
          simp [Tree.ids, Ctx.ids_plug, hnil.1]
        have hkeys2 : (Tree.node y ky Tree.leaf (Ctx.plug cm ry)).keys
            = (Ctx.plug cm (Tree.node y ky Tree.leaf ry)).keys := by
          simp [Tree.keys, Ctx.keys_plug, hnil.2]
        have TB7 : (Tree.node y ky Tree.leaf (Ctx.plug cm ry)).ids.Nodup := by
          rw [hids2]
          exact hndr
        have TB8 : ∀ j ∈ (Tree.node y ky Tree.leaf (Ctx.plug cm ry)).ids,
            j ∉ c.allIds ∧ j ≠ z := by
          intro j hj
          rw [hids2] at hj
          exact ⟨hdisjNC j (Tree.mem_ids_node.mpr (Or.inr (Or.inr hj))),
            ne_of_mem_of_not_mem hj hznr⟩
        have TB9 : ParentOkC s1.heap none c := by
          refine parentOkC_ext (fun j hj => ?_) hPC
          exact hpar01 j (fun he => hzrNC (he ▸ hj))
            (hryne j (fun hm => hdisjNC j (Tree.mem_ids_node.mpr
              (Or.inr (Or.inr (hryinr j hm)))) hj))
        have TB10 : POkInner s1.heap (Tree.node y ky Tree.leaf (Ctx.plug cm ry)) := by
          refine ⟨trivial, ?_⟩
          refine (parentOk_plug cm (some y) ry).mpr ⟨?_, ?_⟩
          · refine @parentOkC_reroot s.heap s1.heap cm (some z) (some y) zr ?_ hndCm hPCm ?_ ?_
            · rw [Ctx.rootD_const cm hcm none (some y)]
              exact hzrD
            · rw [hs1zr]
            · intro j hj hne
              exact hpar01 j hne (hryne j (hcmry j hj))
          · have hcomp : ((Ctx.rt z key l c).comp cm).hp none = cm.hp (some z) := by
              rw [Ctx.hp_comp]
              rfl
            have hQ6a : ParentOk sa.heap (cm.hp (some z)) ry := by
              rw [← hcomp]
              exact Q6
            have hQ6b : ParentOk sa.heap (cm.hp (some y)) ry := by
              rw [Ctx.hp_const cm hcm (some y) (some z)]
              exact hQ6a
            refine parentOk_ext (fun j hj => ?_) hQ6b
            exact hpar1 j (ne_of_mem_of_not_mem hj (hcmry zr hzrmem))
        obtain ⟨W1, W2, W3, W4, W5, W6, W7, W8, W9⟩ :=
          transplant_spec s1 c z (Tree.node y ky Tree.leaf (Ctx.plug cm ry)) TB1 TB2 TB3
            hndC hzNC TB6 TB7 TB8 TB9 TB10
        obtain ⟨s2, hs2eq⟩ : ∃ s2,
            BST.transplant s1 z (Tree.node y ky Tree.leaf (Ctx.plug cm ry)).rootId = s2 :=
          ⟨_, rfl⟩
        rw [hs2eq] at W1 W2 W3 W4 W5 W6 W7 W8 W9
        have hynl2 : ∀ j ∈ l.ids, (Tree.node y ky Tree.leaf (Ctx.plug cm ry)).rootId
            ≠ some j := by
          intro j hj he
          simp only [Tree.rootId, Option.some_inj] at he
          rw [he] at hynl
          exact hynl hj
        have hzl2 : (s2.heap z).left = some zl := by
          have h9 := (W9 z (hp_ne_of_not_mem hzNC)).1
          have h01 := hklr01 z (fun he => hznr (by rw [he]; exact hyinr)) hpynz.symm
          rw [h9, h01.2.1]
          exact hzl'
        have hsa2 : BST.transplant s y (s.heap y).right = sa := by
          rw [hyright]
          exact hsaeq
        have hs2b : BST.transplant s1 z (some y) = s2 := hs2eq
        have hdt := deleteTwo_eq_detach s sa s1 s2 z y zr zl hp hsa2 hzr_sa hs1eq hs2b hzl2
        rw [hdt] at hdel
        have hF := delete_two_finish s s2 c z y zl ky l (Ctx.plug cm ry)
          hlroot hIl hPl
          (fun j hj => by
            have h7 := W7 j
            have h9 := W9 j (hp_ne_of_not_mem (hlnc j hj))
            have h01 := hklr01 j (fun he => hynl (by rw [← he]; exact hj))
              (fun he => hdlr j hj (by rw [he]; exact hpyr))
            exact ⟨h7.trans h01.1, h9.1.trans h01.2.1, h9.2.trans h01.2.2⟩)
          (fun j hj => by
            have h8 := W8 j (hynl2 j hj)
            have h01 := hpar01 j (fun he => hdlr j hj (by rw [he]; exact hzrr))
              (hryne j (fun hm => hdlr j hj (hryinr j hm)))
            exact h8.trans h01)
          hndl hynl hlnc
          (fun j hj hm => by
            rw [Ctx.ids_plug, List.mem_append, List.mem_append] at hm
            rcases hm with (hm | hm) | hm
            · exact hdlr j hj (allIds_subset_plug j (List.mem_append.mpr (Or.inl hm)))
            · exact hdlr j hj (hryinr j hm)
            · exact hdlr j hj (allIds_subset_plug j (List.mem_append.mpr (Or.inr hm))))
          hync
          (by
            intro hm
            rw [Ctx.ids_plug, List.mem_append, List.mem_append] at hm
            rcases hm with (hm | hm) | hm
            · exact hyncm (List.mem_append.mpr (Or.inl hm))
            · exact hynry hm
            · exact hyncm (List.mem_append.mpr (Or.inr hm)))
          W3 W4 W5 W6
        obtain ⟨F1, F2, F3, F4⟩ := hF
        refine ⟨z, _, hdel, hzkey, ?_, ⟨Ctx.plug c (Tree.node y ky l (Ctx.plug cm ry)),
          ?_, ?_⟩, ?_⟩
        · show s2.nextId = s.nextId
          rw [W2, hs1next, Q2]
        · refine ⟨?_, (isRepr_plug c _).mpr ⟨F1, F2⟩, (parentOk_plug c none _).mpr ⟨F3, F4⟩,
            ?_, ?_, ?_⟩
          · rw [Ctx.rootId_plug]
            show s2.root = _
            exact W1
          · have hsub : List.Sublist (Ctx.plug c (Tree.node y ky l (Ctx.plug cm ry))).ids
                (Ctx.plug c (Tree.node z key l
                  (Ctx.plug cm (Tree.node y ky Tree.leaf ry)))).ids := by
              rw [Ctx.ids_plug, Ctx.ids_plug]
              refine List.Sublist.append (List.Sublist.append (List.Sublist.refl _) ?_)
                (List.Sublist.refl _)
              show List.Sublist (Tree.node y ky l (Ctx.plug cm ry)).ids
                (Tree.node z key l (Ctx.plug cm (Tree.node y ky Tree.leaf ry))).ids
              simp only [Tree.ids, Ctx.ids_plug, hnil.1, List.nil_append, List.cons_append,
                List.append_assoc]
              exact List.Sublist.append (List.Sublist.refl _)
                (List.sublist_cons_self z _)
            exact M.nodup.sublist hsub
          · have hsub : List.Sublist (Ctx.plug c (Tree.node y ky l (Ctx.plug cm ry))).keys
                (Ctx.plug c (Tree.node z key l
                  (Ctx.plug cm (Tree.node y ky Tree.leaf ry)))).keys := by
              rw [Ctx.keys_plug, Ctx.keys_plug]
              refine List.Sublist.append (List.Sublist.append (List.Sublist.refl _) ?_)
                (List.Sublist.refl _)
              show List.Sublist (Tree.node y ky l (Ctx.plug cm ry)).keys
                (Tree.node z key l (Ctx.plug cm (Tree.node y ky Tree.leaf ry))).keys
              simp only [Tree.keys, Ctx.keys_plug, hnil.2, List.nil_append, List.cons_append,
                List.append_assoc]
              exact List.Sublist.append (List.Sublist.refl _)
                (List.sublist_cons_self key _)
            exact (ordered_iff_sorted _).mpr (hsorted.sublist hsub)
          · intro i hi
            have hsub : List.Sublist (Ctx.plug c (Tree.node y ky l (Ctx.plug cm ry))).ids
                (Ctx.plug c (Tree.node z key l
                  (Ctx.plug cm (Tree.node y ky Tree.leaf ry)))).ids := by
              rw [Ctx.ids_plug, Ctx.ids_plug]
              refine List.Sublist.append (List.Sublist.append (List.Sublist.refl _) ?_)
                (List.Sublist.refl _)
              show List.Sublist (Tree.node y ky l (Ctx.plug cm ry)).ids
                (Tree.node z key l (Ctx.plug cm (Tree.node y ky Tree.leaf ry))).ids
              simp only [Tree.ids, Ctx.ids_plug, hnil.1, List.nil_append, List.cons_append,
                List.append_assoc]
              exact List.Sublist.append (List.Sublist.refl _)
                (List.sublist_cons_self z _)
            have hb := M.bound i (hsub.subset hi)
            have hnx : s2.nextId = s.nextId := by rw [W2, hs1next, Q2]
            show i < s2.nextId
            rw [hnx]
            exact hb
        · rw [herase, Ctx.keys_plug]
          simp [Tree.keys, Ctx.keys_plug, hnil.2]
        · intro zl0 zr0 h1 h2
          rw [hzr'] at h2
          have hzz : zr = zr0 := Option.some_inj.mp h2
          subst hzz
          refine ⟨y, hmin, ?_⟩
          rw [hzpar]
          exact occupies_helper s _ c z y hC F1 hzNC (by show s2.root = _; exact W1)

/-- Every state reachable by inserts and deletes from the empty tree
satisfies the representation invariant. -/
theorem reachable_inv {s : BST} (hr : Reachable s) : Inv s := by
  induction hr with
  | empty => exact ⟨.leaf, models_empty⟩
  | ins s' k _ ih =>
      obtain ⟨t, M⟩ := ih
      by_cases hk : k ∈ t.keys
      · obtain ⟨x, he, _⟩ := insert_dup M hk
        rw [he]
        exact ⟨t, M⟩
      · obtain ⟨M', _, _⟩ := insert_new M hk
        exact ⟨_, M'⟩
  | del s' k _ ih =>
      obtain ⟨t, M⟩ := ih
      by_cases hk : k ∈ t.keys
      · obtain ⟨z, s2, he, _, _, ⟨t', M', _⟩, _⟩ := delete_present M hk
        rw [he]
        exact ⟨t', M'⟩
      · rw [delete_absent M hk]
        exact ⟨t, M⟩

theorem models_demoA : Models demoA demoTA := by
  refine ⟨?_, ?_, ?_, ?_, ?_, ?_⟩ <;> decide

theorem reachable_foldl {s : BST} (hr : Reachable s) : ∀ l : List Int,
    Reachable (l.foldl (fun s k => (BST.insert s k).1) s) := by
  intro l
  induction l generalizing s with
  | nil => exact hr
  | cons k rest ih => exact ih (Reachable.ins s k hr)

theorem reachable_demoA : Reachable demoA :=
  reachable_foldl Reachable.empty [8, 3, 10, 1, 6, 14, 4, 7, 13]

theorem reachable_demoB : Reachable demoB :=
  Reachable.del demoA 3 reachable_demoA

theorem searchLoop_path {h : Heap} (key : Int) : ∀ (fuel : Nat) (x : Option Nat)
    (p : List Nat) (f : Option Nat),
    BST.searchLoop h key x fuel = some (p, f) → IsSearchPath h key x p f := by
  intro fuel
  induction fuel with
  | zero =>
      intro x p f hq
      cases x <;> exact Option.noConfusion hq
  | succ n ih =>
      intro x p f hq
      cases x with
      | none =>
          have hq' : some (([] : List Nat), (none : Option Nat)) = some (p, f) := hq
          obtain ⟨rfl, rfl⟩ : ([] : List Nat) = p ∧ (none : Option Nat) = f := by
            simpa using hq'
          exact ⟨rfl, rfl⟩
      | some xi =>
          have hunf : BST.searchLoop h key (some xi) (n + 1)
              = if key = (h xi).key then some ([xi], some xi)
                else match BST.searchLoop h key
                    (if key < (h xi).key then (h xi).left else (h xi).right) n with
                  | none => none
                  | some (p0, f0) => some (xi :: p0, f0) := rfl
          rw [hunf] at hq
          by_cases hk : key = (h xi).key
          · rw [if_pos hk] at hq
            obtain ⟨rfl, rfl⟩ : [xi] = p ∧ some xi = f := by simpa using hq
            exact ⟨rfl, by rw [if_pos hk]; exact ⟨rfl, rfl⟩⟩
          · rw [if_neg hk] at hq
            cases hrec : BST.searchLoop h key
                (if key < (h xi).key then (h xi).left else (h xi).right) n with
            | none => rw [hrec] at hq; cases hq
            | some q =>
                obtain ⟨p0, f0⟩ := q
                rw [hrec] at hq
                obtain ⟨rfl, rfl⟩ : xi :: p0 = p ∧ f0 = f := by simpa using hq
                refine ⟨rfl, ?_⟩
                rw [if_neg hk]
                exact ih _ _ _ hrec

theorem isSearchPath_found {h : Heap} {key : Int} : ∀ {p : List Nat} {x : Option Nat}
    {fi : Nat}, IsSearchPath h key x p (some fi) → (h fi).key = key := by
  intro p
  induction p with
  | nil => intro x fi hq; cases hq.2
  | cons i rest ih =>
      intro x fi hq
      obtain ⟨hx, hrest⟩ := hq
      by_cases hk : key = (h i).key
      · rw [if_pos hk] at hrest
        obtain ⟨-, hf⟩ := hrest
        have : fi = i := Option.some_inj.mp hf
        rw [this]
        exact hk.symm
      · rw [if_neg hk] at hrest
        exact ih hrest

theorem parent_slots {s : BST} {t : Tree} (M : Models s t) :
    (∀ j, s.root = some j → (s.heap j).parent = none) ∧
    (∀ j ∈ t.ids, ∀ p, (s.heap j).parent = some p →
      ((s.heap p).left = some j ∧ (s.heap p).right ≠ some j) ∨
      ((s.heap p).right = some j ∧ (s.heap p).left ≠ some j)) ∧
    (∀ p ∈ t.ids, ∀ cc, ((s.heap p).left = some cc ∨ (s.heap p).right = some cc) →
      (s.heap cc).parent = some p) := by
  refine ⟨?_, ?_, ?_⟩
  · intro j hj
    rw [M.root_eq] at hj
    obtain ⟨k, l, r, rfl⟩ := Tree.rootId_node hj
    exact M.pok.1
  · intro j hjmem p hp
    obtain ⟨cx, k, l, r, rfl⟩ := mem_ids_decomp hjmem
    obtain ⟨hCx, hNx⟩ := (isRepr_plug cx _).mp M.repr_ok
    obtain ⟨hPCx, hPNx⟩ := (parentOk_plug cx none _).mp M.pok
    obtain ⟨hndNx, hndCx, hdisjx⟩ := nodup_plug M.nodup
    have hjpar : (s.heap j).parent = cx.hp none := hPNx.1
    have hjn : j ∈ (Tree.node j k l r).ids := Tree.mem_ids_node.mpr (Or.inr (Or.inl rfl))
    cases cx with
    | top =>
        rw [hjpar] at hp
        cases hp
    | lf i ki rs cx' =>
        rw [hjpar] at hp
        have hip : i = p := Option.some_inj.mp hp
        subst hip
        refine Or.inl ⟨hCx.2.1, ?_⟩
        rw [hCx.2.2.1]
        intro he
        have hjrs : j ∈ rs.ids := Tree.rootId_mem he
        exact hdisjx j hjn (Ctx.mem_allIds_lf.mpr (Or.inr (Or.inl hjrs)))
    | rt i ki ls cx' =>
        rw [hjpar] at hp
        have hip : i = p := Option.some_inj.mp hp
        subst hip
        refine Or.inr ⟨hCx.2.1, ?_⟩
        rw [hCx.2.2.1]
        intro he
        have hjls : j ∈ ls.ids := Tree.rootId_mem he
        exact hdisjx j hjn (Ctx.mem_allIds_rt.mpr (Or.inr (Or.inl hjls)))
  · intro pp hpmem cc hcc
    obtain ⟨cx, k, l, r, rfl⟩ := mem_ids_decomp hpmem
    obtain ⟨hCx, hNx⟩ := (isRepr_plug cx _).mp M.repr_ok
    obtain ⟨hPCx, hPNx⟩ := (parentOk_plug cx none _).mp M.pok
    obtain ⟨hppar, hPl, hPr⟩ := hPNx
    rcases hcc with hcc | hcc
    · have hl : l.rootId = some cc := by rw [← hNx.2.1]; exact hcc
      obtain ⟨kl, la, lb, rfl⟩ := Tree.rootId_node hl
      exact hPl.1
    · have hr : r.rootId = some cc := by rw [← hNx.2.2.1]; exact hcc
      obtain ⟨kr, ra, rb, rfl⟩ := Tree.rootId_node hr
      exact hPr.1



/-- Claim C1: from the empty tree, every sequence of inserts and deletes
maintains the BST ordering invariant (left-subtree keys below the node key,
right-subtree keys above) and keeps the stored keys free of duplicates. -/
theorem claim_C1 {s : BST} (hr : Reachable s) :
    ∃ t, Models s t ∧ Ordered t ∧ t.keys.Nodup := by
  obtain ⟨t, M⟩ := reachable_inv hr
  exact ⟨t, M, M.ord, ((ordered_iff_sorted t).mp M.ord).nodup⟩

/-- Witness for C1 at the demonstration state. -/
theorem claim_C1_witness : ∃ t, Models demoA t ∧ Ordered t ∧ t.keys.Nodup :=
  claim_C1 reachable_demoA

/-- Claim C2: deleting a present key returns the node carrying that key,
shrinks the key multiset by exactly that key, and in the two-children case
the replacement is the minimum of the right subtree, spliced into the
deleted node's structural position. -/
theorem claim_C2 {s : BST} {t : Tree} (M : Models s t) {key : Int} (hk : key ∈ t.keys) :
    ∃ z s', BST.delete s key = (s', some z) ∧ (s.heap z).key = key ∧
      (∃ t', Models s' t' ∧ t'.keys = t.keys.erase key) ∧
      (∀ zl zr, (s.heap z).left = some zl → (s.heap z).right = some zr →
        ∃ y, BST.minimum s.heap (some zr) (s.nextId + 1) = .ok y ∧
          (match (s.heap z).parent with
           | none => s'.root = some y
           | some p => (if (s.heap p).left = some z then (s'.heap p).left
               else (s'.heap p).right) = some y)) := by
  obtain ⟨z, s', h1, h2, _, h4, h5⟩ := delete_present M hk
  exact ⟨z, s', h1, h2, h4, h5⟩

/-- Witness for C2: deleting 3 from the demonstration tree. -/
theorem claim_C2_witness :
    ∃ z s', BST.delete demoA 3 = (s', some z) ∧ (demoA.heap z).key = 3 ∧
      (∃ t', Models s' t' ∧ t'.keys = demoTA.keys.erase 3) ∧
      (∀ zl zr, (demoA.heap z).left = some zl → (demoA.heap z).right = some zr →
        ∃ y, BST.minimum demoA.heap (some zr) (demoA.nextId + 1) = .ok y ∧
          (match (demoA.heap z).parent with
           | none => s'.root = some y
           | some p => (if (demoA.heap p).left = some z then (s'.heap p).left
               else (s'.heap p).right) = some y)) :=
  claim_C2 models_demoA (by decide)

/-- Claim C3: on every reachable state, inorder is strictly ascending and
lists exactly the keys of the represented tree. -/
theorem claim_C3 {s : BST} (hr : Reachable s) :
    (BST.inorder s).Sorted (fun a b => a < b) ∧
    ∃ t, Models s t ∧ BST.inorder s = t.keys := by
  obtain ⟨t, M⟩ := reachable_inv hr
  have he := M.inorder_eq
  refine ⟨?_, t, M, he⟩
  rw [he]
  exact (ordered_iff_sorted t).mp M.ord

/-- Witness for C3 at the demonstration state. -/
theorem claim_C3_witness :
    (BST.inorder demoA).Sorted (fun a b => a < b) ∧
    ∃ t, Models demoA t ∧ BST.inorder demoA = t.keys :=
  claim_C3 reachable_demoA

/-- Claim C4, counterexample: in the demonstration scenario, deleting 3
(children with keys 1 and 6) picks as successor the node whose key is 4 -
the minimum of the right subtree, which contains 4, 6, 7 - not the node
with key 6 as the spec asserts; the key-4 node is what ends up in 3's
former position. -/
theorem claim_C4_counterexample :
    (BST.delete demoA 3).2 = some 1 ∧ (demoA.heap 1).key = 3 ∧
    (demoA.heap 1).left = some 3 ∧ (demoA.heap 3).key = 1 ∧
    (demoA.heap 1).right = some 4 ∧ (demoA.heap 4).key = 6 ∧
    BST.minimum demoA.heap (some 4) (demoA.nextId + 1) = .ok 6 ∧
    (demoA.heap 6).key = 4 ∧ ¬ (demoA.heap 6).key = 6 ∧
    (demoB.heap 0).left = some 6 := by decide

/-- Claim C4, amended: the demonstration scenario with the successor
corrected to the key-4 node: inorder and depth of the built tree are as
stated; after delete 3 the key-4 node occupies 3's former position with
left child keyed 1; search 13 visits keys 8, 10, 14, 13 and finds 13. -/
theorem claim_C4 :
    BST.inorder demoA = [1, 3, 4, 6, 7, 8, 10, 13, 14] ∧
    BST.depth demoA = 4 ∧
    BST.inorder demoB = [1, 4, 6, 7, 8, 10, 13, 14] ∧
    (demoB.heap 0).left = some 6 ∧ (demoB.heap 6).key = 4 ∧
    (demoB.heap 6).left = some 3 ∧ (demoB.heap 3).key = 1 ∧
    (BST.search demoB 13).1.map (fun i => (demoB.heap i).key) = [8, 10, 14, 13] ∧
    (BST.search demoB 13).2 = some 8 ∧ (demoB.heap 8).key = 13 := by decide

/-- Claim C5: inserting an already-present key creates no node, returns the
existing node as the duplicate indicator, leaves the state untouched, the
key appears exactly once in inorder, and depth and the node set are
unchanged. -/
theorem claim_C5 {s : BST} {t : Tree} (M : Models s t) {key : Int} (hk : key ∈ t.keys) :
    ∃ x, BST.insert s key = (s, none, some x) ∧ (s.heap x).key = key ∧
      List.count key (BST.inorder s) = 1 ∧
      BST.depth (BST.insert s key).1 = BST.depth s ∧
      BST.nodes (BST.insert s key).1 = BST.nodes s := by
  obtain ⟨x, he, hx⟩ := insert_dup M hk
  refine ⟨x, he, hx, ?_, by rw [he], by rw [he]⟩
  rw [M.inorder_eq]
  exact List.count_eq_one_of_mem ((ordered_iff_sorted t).mp M.ord).nodup hk

/-- Witness for C5: re-inserting 8 into the demonstration tree. -/
theorem claim_C5_witness :
    ∃ x, BST.insert demoA 8 = (demoA, none, some x) ∧ (demoA.heap x).key = 8 ∧
      List.count 8 (BST.inorder demoA) = 1 ∧
      BST.depth (BST.insert demoA 8).1 = BST.depth demoA ∧
      BST.nodes (BST.insert demoA 8).1 = BST.nodes demoA :=
  claim_C5 models_demoA (by decide)

/-- Claim C6: deleting an absent key returns none and leaves the state
untouched, and searching for it reports found = none. -/
theorem claim_C6 {s : BST} {t : Tree} (M : Models s t) {key : Int} (hk : key ∉ t.keys) :
    BST.delete s key = (s, none) ∧ (BST.search s key).2 = none := by
  refine ⟨delete_absent M hk, ?_⟩
  rw [M.search_eq]
  exact (searchA_none key M.ord).mpr hk

/-- Witness for C6: key 5 is absent from the demonstration tree. -/
theorem claim_C6_witness :
    BST.delete demoA 5 = (demoA, none) ∧ (BST.search demoA 5).2 = none :=
  claim_C6 models_demoA (by decide)

/-- Claim C7, counterexample: on the empty tree, minimum does not return an
empty result; it dereferences the null root (an AttributeError in the
source, modelled as an error value). -/
theorem claim_C7_counterexample :
    BST.minimum emptyBST.heap emptyBST.root (emptyBST.nextId + 1) = .error () := by decide

/-- Claim C7, amended: on the empty tree, depth returns 0 and inorder the
empty sequence, but minimum raises (error) instead of returning none. -/
theorem claim_C7 :
    BST.depth emptyBST = 0 ∧ BST.inorder emptyBST = [] ∧
    BST.minimum emptyBST.heap emptyBST.root (emptyBST.nextId + 1) = .error () := by decide

/-- Claim C8: on every reachable state, parent and child links are mutually
consistent: the root's parent is empty; a node's recorded parent points back
through exactly one of its child slots; and any child pointer is mirrored by
the child's parent pointer. -/
theorem claim_C8 {s : BST} (hr : Reachable s) :
    ∃ t, Models s t ∧
      (∀ j, s.root = some j → (s.heap j).parent = none) ∧
      (∀ j ∈ t.ids, ∀ p, (s.heap j).parent = some p →
        ((s.heap p).left = some j ∧ (s.heap p).right ≠ some j) ∨
        ((s.heap p).right = some j ∧ (s.heap p).left ≠ some j)) ∧
      (∀ p ∈ t.ids, ∀ cc, ((s.heap p).left = some cc ∨ (s.heap p).right = some cc) →
        (s.heap cc).parent = some p) := by
  obtain ⟨t, M⟩ := reachable_inv hr
  obtain ⟨h1, h2, h3⟩ := parent_slots M
  exact ⟨t, M, h1, h2, h3⟩

/-- Witness for C8 at the demonstration state. -/
theorem claim_C8_witness :
    ∃ t, Models demoA t ∧
      (∀ j, demoA.root = some j → (demoA.heap j).parent = none) ∧
      (∀ j ∈ t.ids, ∀ p, (demoA.heap j).parent = some p →
        ((demoA.heap p).left = some j ∧ (demoA.heap p).right ≠ some j) ∨
        ((demoA.heap p).right = some j ∧ (demoA.heap p).left ≠ some j)) ∧
      (∀ p ∈ t.ids, ∀ cc, ((demoA.heap p).left = some cc ∨ (demoA.heap p).right = some cc) →
        (demoA.heap cc).parent = some p) :=
  claim_C8 reachable_demoA

/-- Claim C9: search follows the comparison trail from the root, recording
each visited node, stopping at an equal key (returned as found) or an empty
child reference (found = none); a found node carries the searched key, and
the path is empty exactly when the tree is empty. -/
theorem claim_C9 {s : BST} {t : Tree} (M : Models s t) (key : Int) :
    IsSearchPath s.heap key s.root (BST.search s key).1 (BST.search s key).2 ∧
    ((BST.search s key).1 = [] ↔ s.root = none) ∧
    (∀ fi, (BST.search s key).2 = some fi → (s.heap fi).key = key) := by
  have hloop : BST.searchLoop s.heap key s.root (s.nextId + 1) = some (BST.search s key) := by
    rw [M.root_eq, searchLoop_spec key M.repr_ok M.height_lt, M.search_eq]
  have hpath := searchLoop_path key (s.nextId + 1) s.root
    (BST.search s key).1 (BST.search s key).2 hloop
  refine ⟨hpath, ⟨?_, ?_⟩, ?_⟩
  · intro he
    rw [he] at hpath
    exact hpath.1
  · intro he
    simp [BST.search, he, BST.searchLoop]
  · intro fi hf
    rw [hf] at hpath
    exact isSearchPath_found hpath

/-- Witness for C9: searching 13 in the demonstration tree. -/
theorem claim_C9_witness :
    IsSearchPath demoA.heap 13 demoA.root (BST.search demoA 13).1 (BST.search demoA 13).2 ∧
    ((BST.search demoA 13).1 = [] ↔ demoA.root = none) ∧
    (∀ fi, (BST.search demoA 13).2 = some fi → (demoA.heap fi).key = 13) :=
  claim_C9 models_demoA 13

/-- Claim C10, counterexample: when the key is already present, insert is a
no-op but the delete then removes the pre-existing occurrence, so
insert-then-delete does not restore the key set. -/
theorem claim_C10_counterexample :
    BST.inorder ((BST.delete ((BST.insert ((BST.insert emptyBST 5).1) 5).1) 5).1)
      ≠ BST.inorder ((BST.insert emptyBST 5).1) := by decide

/-- Claim C10, amended: for a key not already present, inserting it and then
immediately deleting it restores the exact key set. -/
theorem claim_C10 {s : BST} {t : Tree} (M : Models s t) {key : Int} (hk : key ∉ t.keys) :
    ∃ t', Models ((BST.delete ((BST.insert s key).1) key).1) t' ∧ t'.keys = t.keys := by
  obtain ⟨M', hres, hnext⟩ := insert_new M hk
  have hkin : key ∈ (insertAlg key s.nextId t).keys :=
    ((insertAlg_keys key s.nextId hk).mem_iff.mpr (List.mem_cons_self key t.keys))
  obtain ⟨z, s', h1, _, _, ⟨t'', M'', hkeys⟩, _⟩ := delete_present M' hkin
  refine ⟨t'', by rw [h1]; exact M'', ?_⟩
  rw [hkeys]
  have hperm : ((insertAlg key s.nextId t).keys.erase key).Perm
      ((key :: t.keys).erase key) := (insertAlg_keys key s.nextId hk).erase key
  rw [List.erase_cons_head] at hperm
  have hs2 : t.keys.Sorted (fun a b => a < b) := (ordered_iff_sorted t).mp M.ord
  have hs1 : ((insertAlg key s.nextId t).keys.erase key).Sorted (fun a b => a < b) := by
    have hs'' := (ordered_iff_sorted t'').mp M''.ord
    rw [hkeys] at hs''
    exact hs''
  haveI : IsAntisymm Int (fun a b => a < b) :=
    ⟨fun a b h1 h2 => absurd h2 (lt_asymm h1)⟩
  exact List.eq_of_perm_of_sorted hperm hs1 hs2

/-- Witness for C10: inserting then deleting 5 around the demonstration
tree restores its key list. -/
theorem claim_C10_witness :
    ∃ t', Models ((BST.delete ((BST.insert demoA 5).1) 5).1) t' ∧ t'.keys = demoTA.keys :=
  claim_C10 models_demoA (by decide)


end BSTVis
